import Mathlib

/-!
Verification development for the manufacturer image resolution pipeline of
the ar-directory repository (file scripts/enrich-manufacturer-images.mjs).

The JavaScript source is shallowly embedded: every stateful or effectful
construct is made explicit.  Network requests (page fetches and image
probes) are modelled as oracles, i.e. explicit function arguments
`fetchC : String -> Option (List Candidate)` (a page fetch composed with
candidate extraction; `none` is a failed fetch) and
`probe : String -> Option ProbeResult` (`none` is a failed probe).  The
WHATWG URL parser used by the script through `new URL` is modelled by a
simplified parser `parseUrlL` that covers the http/https URLs the script
manipulates: scheme, lower-cased host, path and query; fragments, ports,
userinfo and percent-encoding normalisation are outside the model (the
parser rejects those inputs instead of normalising them).  JavaScript
strings are modelled as `String`/`List Char`; all machine numbers that
matter (scores, content lengths) are integers in the source, modelled as
`Int`/`Nat`.
-/

namespace ArDirectory

/-- Characters collapsed by the script's `sanitize` (control characters
U+0000..U+001F and U+007F via CONTROL_CHAR_REGEX, then all whitespace via
the JavaScript regex \s which also covers U+0020 and U+00A0). -/
def isSpacey (c : Char) : Bool := c.toNat ≤ 32 || c.toNat == 127 || c.toNat == 160

/-- ASCII lower-casing of one character, modelling JavaScript
`toLowerCase` on the ASCII range used by the script. -/
def asciiLower (c : Char) : Char :=
  if 65 ≤ c.toNat && c.toNat ≤ 90 then Char.ofNat (c.toNat + 32) else c

/-- Lower-case a character list. -/
def lowerL (l : List Char) : List Char := l.map asciiLower

/-- Collapse every maximal run of spacey characters into one space,
modelling the two `replace` calls of `sanitize`. -/
def squash : List Char → List Char
  | [] => []
  | [c] => [if isSpacey c then ' ' else c]
  | c :: d :: rest =>
    if isSpacey c && isSpacey d then squash (d :: rest)
    else (if isSpacey c then ' ' else c) :: squash (d :: rest)

/-- Drop leading spaces. -/
def dropLeadSpace (l : List Char) : List Char := l.dropWhile (fun c => c == ' ')

/-- Trim spaces from both ends (after `squash` only plain spaces remain). -/
def trimSpace (l : List Char) : List Char :=
  (dropLeadSpace ((dropLeadSpace l).reverse)).reverse

/-- The script's `sanitize`: collapse control/whitespace runs into single
spaces and trim. -/
def sanitizeL (l : List Char) : List Char := trimSpace (squash l)

/-- `sanitize` on `String`. -/
def strSanitize (s : String) : String := (sanitizeL s.data).asString

/-- JavaScript `String.prototype.trim`: strip leading and trailing
whitespace without touching the interior. -/
def trimSpaceyEnds (l : List Char) : List Char :=
  ((l.dropWhile isSpacey).reverse.dropWhile isSpacey).reverse

/-- `trim` on `String`, used for `String(row.id ?? '').trim()`. -/
def strTrim (s : String) : String := (trimSpaceyEnds s.data).asString

/-- Substring test on character lists, modelling JavaScript
`String.prototype.includes`. -/
def isSub (needle : List Char) : List Char → Bool
  | [] => needle.isEmpty
  | c :: rest => needle.isPrefixOf (c :: rest) || isSub needle rest

/-- `haystack.includes(needle)` for strings. -/
def strContains (hay needle : String) : Bool := isSub needle.data hay.data

/-- Split a character list at every occurrence of a separator character,
modelling JavaScript `String.prototype.split` with a one-character
separator (so the empty input yields one empty segment). -/
def splitOnCharL (sep : Char) (l : List Char) : List (List Char) :=
  l.foldr
    (fun c acc =>
      match acc with
      | [] => if c == sep then [[], []] else [[c]]
      | cur :: rest => if c == sep then [] :: cur :: rest else (c :: cur) :: rest)
    [[]]

/-- Split at every maximal run of characters satisfying `p`, modelling a
JavaScript `split` on a one-or-more character-class regex. -/
def splitOnRuns (p : Char → Bool) (l : List Char) : List (List Char) :=
  l.foldr
    (fun c acc =>
      match acc with
      | [] => if p c then [[], []] else [[c]]
      | cur :: rest =>
        if p c then (if cur == ([] : List Char) then [] :: rest else [] :: cur :: rest)
        else (c :: cur) :: rest)
    [[]]

/-- Join segments with a dot, modelling `parts.join(".")`. -/
def joinDots (ps : List (List Char)) : List Char := (ps.intersperse ['.']).flatten

/-! ### URL model -/

/-- A parsed http(s) URL: scheme flag, lower-cased host, path (always
starting with a slash) and query (empty or starting with a question
mark).  Fragments, ports and userinfo are not modelled; `parseUrlL`
rejects inputs carrying them. -/
structure HttpUrl where
  secure : Bool
  host : List Char
  path : List Char
  query : List Char
deriving DecidableEq

/-- Result of the modelled URL parser: an http(s) URL with components, or
an opaque non-http URL (scheme plus remainder), mirroring that the
platform parser accepts schemes like mailto without a host. -/
inductive ParsedUrl
  | http (u : HttpUrl)
  | other (scheme rest : List Char)
deriving DecidableEq

def isSchemeChar (c : Char) : Bool := c.isAlpha || c.isDigit || c == '+' || c == '-' || c == '.'

def validScheme : List Char → Bool
  | [] => false
  | c :: rest => c.isAlpha && rest.all isSchemeChar

/-- Characters allowed in a modelled host: anything except whitespace,
separators and the port/userinfo markers the model rejects. -/
def hostOkChar (c : Char) : Bool :=
  !isSpacey c && c != ':' && c != '@' && c != '/' && c != '?' && c != '#'

/-- Modelled `new URL(text)` on an absolute URL.  Whitespace anywhere,
a missing scheme, an empty host and port/userinfo markers make parsing
fail, mirroring (for whitespace and ports, conservatively restricting)
the platform parser on the URLs the script handles. -/
def parseUrlL (cs : List Char) : Option ParsedUrl :=
  if cs.any isSpacey then none
  else
    let pre := cs.takeWhile (fun c => c != ':')
    let rest := cs.dropWhile (fun c => c != ':')
    match rest with
    | [] => none
    | _ :: afterColon =>
      let scheme := lowerL pre
      if ¬ validScheme scheme then none
      else if scheme = ("http").data ∨ scheme = ("https").data then
        match afterColon with
        | '/' :: '/' :: rest2 =>
          let hostRaw := rest2.takeWhile (fun c => c != '/' && c != '?' && c != '#')
          let afterHost := rest2.dropWhile (fun c => c != '/' && c != '?' && c != '#')
          let host := lowerL hostRaw
          if host.isEmpty || !(host.all hostOkChar) then none
          else
            let path0 := afterHost.takeWhile (fun c => c != '?' && c != '#')
            let afterPath := afterHost.dropWhile (fun c => c != '?' && c != '#')
            let path := if path0.isEmpty then ['/'] else path0
            let query := afterPath.takeWhile (fun c => c != '#')
            some (.http ⟨scheme = ("https").data, host, path, query⟩)
        | _ => none
      else some (.other scheme afterColon)

/-- Serialisation of a parsed http(s) URL, modelling `URL.toString()`. -/
def urlToStringL (u : HttpUrl) : List Char :=
  (if u.secure then ("https://").data else ("http://").data) ++ u.host ++ u.path ++ u.query

def urlToString (u : HttpUrl) : String := (urlToStringL u).asString

/-- `origin` of a parsed http(s) URL (scheme and host, no trailing
slash), modelling `URL.origin` for the hostnames the script handles. -/
def urlOrigin (u : HttpUrl) : String :=
  ((if u.secure then ("https://").data else ("http://").data) ++ u.host).asString

/-- The script's `safeHttpUrl`: sanitize, parse, require the http or
https scheme, return the serialisation; every failure yields the empty
string. -/
def safeHttpUrl (s : String) : String :=
  let t := sanitizeL s.data
  if t.isEmpty then ""
  else
    match parseUrlL t with
    | some (.http u) => urlToString u
    | _ => ""

/-- Well-formedness of an `HttpUrl` as produced by `parseUrlL`: the host
is non-empty, in canonical lower case and free of separators; the path
starts with a slash and carries no query/fragment markers; the query is
empty or starts with a question mark; nothing is spacey. -/
def HttpUrl.wf (u : HttpUrl) : Bool :=
  !u.host.isEmpty && u.host.all hostOkChar && (lowerL u.host == u.host) &&
  (u.path.head? == some '/') &&
  u.path.all (fun c => !isSpacey c && c != '?' && c != '#') &&
  (u.query.isEmpty || u.query.head? == some '?') &&
  u.query.all (fun c => !isSpacey c && c != '#')

/-! ### Constant tables of the script -/

def badImageHints : List String :=
  ["logo", "icon", "favicon", "sprite", "avatar", "badge", "placeholder", "loader",
   "apple-touch", "maskable", "site-icon", "manifest", "new-tab", "pwa"]

def socialHostHints : List String :=
  ["facebook.com", "fbcdn.net", "twitter.com", "x.com", "linkedin.com"]

def hardBlockImageHints : List String :=
  ["favicon", "apple-touch", "maskable", "/icons/", "/icon/"]

def disallowedSourceHostHints : List String :=
  ["wikipedia.org", "wikimedia.org", "kickstarter.com", "indiegogo.com"]

def secondLevelTlds : List String :=
  ["co.uk", "org.uk", "com.au", "co.jp", "com.br", "com.mx", "com.tr", "co.kr",
   "com.cn", "com.tw", "com.sg", "com.hk", "co.in"]

def maxCandidatesToProbe : Nat := 16

def minContentLength : Int := 2000

/-- The curated per-model override table CURATED_IMAGE_OVERRIDES_BY_ID. -/
def curatedImageOverridesById : List (String × String) :=
  [("vH20M2KPj", "https://www.ajnalens.com/_next/static/media/Rec3467860.81d5d5c9.svg"),
   ("UR8rXYX7t", "https://static.wixstatic.com/media/86f41c_ff8e1bdf90e1402b98efcb9c7dc5e98c~mv2.png/v1/fit/w_1920,h_1440,q_90,enc_avif,quality_auto/86f41c_ff8e1bdf90e1402b98efcb9c7dc5e98c~mv2.png"),
   ("6z7r29ojZ", "https://images.prismic.io/julbo/Zw5sh4F3NbkBXduo_adilheadermobile.jpg?auto=format,compress&rect=0,375,1748,1748&w=580&h=580&fit=crop"),
   ("0iz9ksGZA", "https://static.xx.fbcdn.net/mci_ab/public/cms/?ab_b=e&ab_page=CMS&ab_entry=2061368471315981&version=1765379917&transcode_extension=webp"),
   ("vn_zQOTOV", "https://ztedevices.com/content/dam/zte-devices/global/products/accessories/wearable/nubia-neovision-glass/nubia%20Neovision%20Glass.png"),
   ("pOfzEGXDw", "https://xyz-reality.transforms.svdcdn.com/production/assets/Page-Images/Onsite-deployment/Ontime-delivery-3.jpg?w=1200&h=630&q=82&auto=format&fit=crop&dm=1738945418&s=9a14dac00700f9b0f5a72140d5d5c816")]

/-- `CURATED_IMAGE_OVERRIDES_BY_ID[String(id ?? '').trim()]`, with a
missing entry read back as the empty string (the `?? ''` the script
applies through `safeHttpUrl`'s `String(value ?? '')`). -/
def curatedOverrideFor (id : String) : String :=
  (curatedImageOverridesById.lookup (strTrim id)).getD ""

/-! ### Data model -/

/-- One catalog row with the fields the pipeline reads or writes. -/
structure Row where
  id : String
  name : String
  short_name : String
  manufacturer : String
  official_url : String
  image_url : String
deriving DecidableEq

/-- Provenance tag of a discovered candidate (the `kind` strings of the
script as an enumeration). -/
inductive Kind
  | og | twitter | itemprop | link | source | img | jsonld | raw
deriving DecidableEq

/-- The base weight table of `staticCandidateScore` (`typeWeight`). -/
def typeWeight : Kind → Int
  | .og => 70
  | .twitter => 62
  | .itemprop => 56
  | .link => 44
  | .source => 30
  | .img => 24
  | .jsonld => 22
  | .raw => 12

/-- A discovered image candidate. -/
structure Candidate where
  url : String
  kind : Kind
deriving DecidableEq

/-- A candidate together with its static score. -/
structure ScoredCandidate extends Candidate where
  score : Int
deriving DecidableEq

/-! ### Host helpers -/

/-- `hasHostHint`: the hostname equals the hint or is a subdomain of it. -/
def hasHostHint (hostname hint : List Char) : Bool :=
  hostname == hint || ('.' :: hint).isSuffixOf hostname

/-- The dot-separated non-empty labels of a lower-cased hostname. -/
def hostParts (hostname : List Char) : List (List Char) :=
  (splitOnCharL '.' (lowerL hostname)).filter (fun p => !p.isEmpty)

/-- `normalizeRootDomain`: lower-case, split on dots, drop empty parts,
keep the last two labels, or the last three when the final two form a
known two-part public suffix. -/
def normalizeRootDomain (hostname : List Char) : List Char :=
  if (hostParts hostname).length ≤ 2 then joinDots (hostParts hostname)
  else
    if (secondLevelTlds.map (fun s => s.data)).contains
        (joinDots ((hostParts hostname).drop ((hostParts hostname).length - 2))) ∧
        3 ≤ (hostParts hostname).length then
      joinDots ((hostParts hostname).drop ((hostParts hostname).length - 3))
    else joinDots ((hostParts hostname).drop ((hostParts hostname).length - 2))

/-- `domainAffinityScore`: 60 for the same registrable domain, 35 when
one host is a subdomain of the other's registrable domain, else 0. -/
def domainAffinityScore (candidateHost officialHost : List Char) : Int :=
  if (normalizeRootDomain candidateHost).isEmpty ||
      (normalizeRootDomain officialHost).isEmpty then 0
  else if normalizeRootDomain candidateHost = normalizeRootDomain officialHost then 60
  else if ('.' :: normalizeRootDomain officialHost).isSuffixOf candidateHost ||
      ('.' :: normalizeRootDomain candidateHost).isSuffixOf officialHost then 35
  else 0

/-! ### Tokenisation -/

def isTokenChar (c : Char) : Bool :=
  ('a' ≤ c && c ≤ 'z') || ('0' ≤ c && c ≤ '9')

/-- Tokens of one text field: sanitize, lower-case, split on runs of
non-alphanumeric characters, keep tokens of three or more characters. -/
def fieldTokens (s : String) : List (List Char) :=
  ((splitOnRuns (fun c => !isTokenChar c) (lowerL (sanitizeL s.data))).filter
    (fun t => 3 ≤ t.length))

/-- First-occurrence deduplication, modelling `[...new Set(list)]`. -/
def dedupFirst (l : List (List Char)) : List (List Char) :=
  (l.foldl
    (fun (acc : List (List Char) × List (List Char)) t =>
      if acc.2.contains t then acc else (acc.1 ++ [t], t :: acc.2))
    ([], [])).1

/-- `tokenizeRow`: deduplicated name and short-name tokens. -/
def tokenizeRow (r : Row) : List (List Char) :=
  dedupFirst (fieldTokens r.name ++ fieldTokens r.short_name)

/-! ### Path pattern tests of the scorer -/

def imageExtensions : List String := ["jpg", "jpeg", "png", "webp", "avif"]

/-- Does the list start with a dot, one of the image extensions, and then
either the end of the string or a question mark?  (One anchor position of
IMAGE_EXTENSION_REGEX.) -/
def extMatchAt (exts : List String) (l : List Char) : Bool :=
  exts.any fun e =>
    match l with
    | '.' :: rest =>
      e.data.isPrefixOf rest &&
        (match rest.drop e.length with
         | [] => true
         | '?' :: _ => true
         | _ => false)
    | _ => false

/-- IMAGE_EXTENSION_REGEX applied to an already lower-cased path. -/
def hasImageExt : List Char → Bool
  | [] => false
  | c :: rest => extMatchAt imageExtensions (c :: rest) || hasImageExt rest

/-- The SVG test of the scorer on an already lower-cased path. -/
def hasSvgExt : List Char → Bool
  | [] => false
  | c :: rest => extMatchAt ["svg"] (c :: rest) || hasSvgExt rest

def digitsVal (l : List Char) : Nat := l.foldl (fun a c => a * 10 + (c.toNat - 48)) 0

/-- Try to read three-or-four digits (greedy, longer first), then an
invocation of `next` on the remainder. -/
def tryDigits (next : List Char → Nat → Option (Nat × Nat)) (l : List Char) :
    Option (Nat × Nat) :=
  let try4 :=
    let w := l.take 4
    if w.length == 4 && w.all Char.isDigit then next (l.drop 4) (digitsVal w) else none
  match try4 with
  | some r => some r
  | none =>
    let w := l.take 3
    if w.length == 3 && w.all Char.isDigit then next (l.drop 3) (digitsVal w) else none

/-- One anchor position of the dimension regex (\d{3,4})x(\d{3,4}),
with the backtracking order of the JavaScript engine. -/
def dimsAt (l : List Char) : Option (Nat × Nat) :=
  tryDigits
    (fun rest w =>
      match rest with
      | 'x' :: after => tryDigits (fun _ h => some (w, h)) after
      | _ => none)
    l

/-- Leftmost match of the dimension regex over the path. -/
def dimsScan : List Char → Option (Nat × Nat)
  | [] => none
  | c :: rest =>
    match dimsAt (c :: rest) with
    | some d => some d
    | none => dimsScan rest

/-! ### The static candidate scorer -/

/-- The path-derived part of the score: extension bonus or
images/media/assets bonus, SVG penalty, denylisted-hint penalty. -/
def pathSignalScore (path : List Char) : Int :=
  (if hasImageExt path then 14
   else if isSub ("/images/").data path || isSub ("/media/").data path ||
        isSub ("/assets/").data path then 4
   else 0)
  + (if hasSvgExt path then -24 else 0)
  + (if badImageHints.any (fun h => isSub h.data path) then -160 else 0)

/-- Token-relevance part of the score: nine points per token found in the
path, capped at 36 (`Math.min(tokenHits * 9, 36)`). -/
def tokenScore (tokens : List (List Char)) (path : List Char) : Int :=
  min ((tokens.countP (fun t => isSub t path) : Int) * 9) 36

/-- Dimension bonus: ten points when the path encodes WxH with W at least
500 and H at least 300. -/
def dimBonus (path : List Char) : Int :=
  match dimsScan path with
  | some (w, h) => if 500 ≤ w ∧ 300 ≤ h then 10 else 0
  | none => 0

/-- Does the candidate hostname contain one of the social host hints as a
substring (`parsed.hostname.includes(host)`)? -/
def socialHit (host : List Char) : Bool :=
  socialHostHints.any (fun h => isSub h.data host)

/-- The script's `staticCandidateScore`.  On URL-parse failure the
accumulated base weight keeps its value and 999 is subtracted, exactly as
the `catch` block does after `score += typeWeight[...]` has run.  For an
opaque non-http URL the platform parser yields an empty hostname and a
scheme-local path; the model mirrors that. -/
def staticCandidateScore (c : Candidate) (officialHost : List Char)
    (tokens : List (List Char)) : Int :=
  let base := typeWeight c.kind
  match parseUrlL c.url.data with
  | some (.http u) =>
    let path := lowerL (u.path ++ u.query)
    base + domainAffinityScore u.host officialHost
      + (if socialHit u.host then -120 else 0)
      + pathSignalScore path
      + tokenScore tokens path
      + dimBonus path
  | some (.other _ rest) =>
    let path := lowerL rest
    base + domainAffinityScore [] officialHost
      + (if socialHit [] then -120 else 0)
      + pathSignalScore path
      + tokenScore tokens path
      + dimBonus path
  | none => base - 999

/-! ### Probe results and the probing loop -/

/-- Transport-level evidence for a candidate returned by `probeImage`
(`contentLength` is 0 when the header is absent). -/
structure ProbeResult where
  contentType : String
  contentLength : Int
deriving DecidableEq

/-- The size bonus added to the static score after a successful probe. -/
def sizeBonus (len : Int) : Int :=
  if 250000 ≤ len then 12 else if 80000 ≤ len then 8 else if 12000 ≤ len then 4 else 0

/-- The hard-block test applied before probing a ranked candidate. -/
def hardBlocked (url : String) : Bool :=
  hardBlockImageHints.any (fun h => isSub h.data (lowerL url.data))

/-- A probe outcome whose declared length is positive but below
MIN_CONTENT_LENGTH is rejected outright. -/
def lenRejected (p : ProbeResult) : Bool :=
  0 < p.contentLength && p.contentLength < minContentLength

/-- The acceptance condition of the probing loop for one candidate: not
hard-blocked, probe delivered evidence, not length-rejected, effective
score at least 20. -/
def acceptsCandidate (probe : String → Option ProbeResult) (c : ScoredCandidate) : Bool :=
  !hardBlocked c.url &&
    (match probe c.url with
     | some p => !lenRejected p && decide (20 ≤ c.score + sizeBonus p.contentLength)
     | none => false)

/-- The probing loop over the ranked slice, instrumented with the list of
URLs that were actually probed (hard-blocked candidates are skipped
without a probe).  Returns the resolved URL (empty when exhausted). -/
def probeLoopT (probe : String → Option ProbeResult) :
    List ScoredCandidate → String × List String
  | [] => ("", [])
  | c :: rest =>
    if hardBlocked c.url then probeLoopT probe rest
    else
      match probe c.url with
      | none =>
        let r := probeLoopT probe rest
        (r.1, c.url :: r.2)
      | some p =>
        if lenRejected p then
          let r := probeLoopT probe rest
          (r.1, c.url :: r.2)
        else if 20 ≤ c.score + sizeBonus p.contentLength then (c.url, [c.url])
        else
          let r := probeLoopT probe rest
          (r.1, c.url :: r.2)

/-- Stable descending comparison by score, modelling the stable
JavaScript sort with comparator (left, right) => right.score - left.score. -/
def scoreDescLe (a b : ScoredCandidate) : Bool := b.score ≤ a.score

/-- Insert an element into a sorted list, before the first element it
may precede; equal elements keep the inserted element first. -/
def stableInsert {α : Type} (le : α → α → Bool) (a : α) : List α → List α
  | [] => [a]
  | b :: rest => if le a b then a :: b :: rest else b :: stableInsert le a rest

/-- Stable insertion sort.  The JavaScript `Array.prototype.sort` is
specified to be stable, and for a total preorder the stable order is
unique, so this models the script's comparator sorts exactly. -/
def stableSort {α : Type} (le : α → α → Bool) : List α → List α
  | [] => []
  | a :: rest => stableInsert le a (stableSort le rest)

/-- Score all candidates, sort descending by static score (stable), take
the top MAX_CANDIDATES_TO_PROBE. -/
def rankCandidates (cands : List Candidate) (officialHost : List Char)
    (tokens : List (List Char)) : List ScoredCandidate :=
  (stableSort scoreDescLe
    (cands.map fun c => ⟨c, staticCandidateScore c officialHost tokens⟩)).take
    maxCandidatesToProbe

/-! ### The per-row resolver -/

/-- `resolveImageForRow`, instrumented.  `fetchC` is the network oracle
composing `fetchText` with `collectImageCandidates`: for a page URL it
returns the candidates extracted from the fetched document, or `none`
when the fetch failed.  `probe` is the `probeImage` oracle.  Returns the
resolved URL (empty if unresolved), the pages the row would fetch, and
the candidate URLs actually probed.  The non-http branch of the URL
match is unreachable because `safeHttpUrl` only emits http(s) URLs. -/
def sourcePagesOf (u : HttpUrl) (officialUrl : String) : List String :=
  if urlOrigin u ≠ officialUrl then [officialUrl, urlOrigin u] else [officialUrl]

/-- All candidates extracted from the pages that were fetched
successfully (`fetchText` plus `collectImageCandidates` per page, failed
fetches tolerated and skipped). -/
def fetchedCandidates (fetchC : String → Option (List Candidate))
    (pages : List String) : List Candidate :=
  (pages.map (fun p => (fetchC p).getD [])).flatten

/-- `resolveImageForRow`, instrumented.  `fetchC` is the network oracle
composing `fetchText` with `collectImageCandidates`: for a page URL it
returns the candidates extracted from the fetched document, or `none`
when the fetch failed.  `probe` is the `probeImage` oracle.  Returns the
resolved URL (empty if unresolved), the pages the row fetches, and the
candidate URLs actually probed.  The non-http branch of the URL match is
unreachable because `safeHttpUrl` only emits http(s) URLs. -/
def resolveImageForRowT (fetchC : String → Option (List Candidate))
    (probe : String → Option ProbeResult) (row : Row) :
    String × List String × List String :=
  if safeHttpUrl row.official_url = "" then ("", [], [])
  else
    match parseUrlL (safeHttpUrl row.official_url).data with
    | some (.http u) =>
      if disallowedSourceHostHints.any (fun h => hasHostHint u.host h.data) then
        ("", [], [])
      else
        if (fetchedCandidates fetchC
            (sourcePagesOf u (safeHttpUrl row.official_url))).isEmpty then
          ("", sourcePagesOf u (safeHttpUrl row.official_url), [])
        else
          ((probeLoopT probe (rankCandidates
              (fetchedCandidates fetchC (sourcePagesOf u (safeHttpUrl row.official_url)))
              u.host (tokenizeRow row))).1,
           sourcePagesOf u (safeHttpUrl row.official_url),
           (probeLoopT probe (rankCandidates
              (fetchedCandidates fetchC (sourcePagesOf u (safeHttpUrl row.official_url)))
              u.host (tokenizeRow row))).2)
    | _ => ("", [], [])

/-! ### Srcset parsing and the source-element extraction rule -/

/-- An exact srcset weight: the rational number num / 10^dexp.  This
represents every finite decimal the descriptor grammar produces without
rounding; comparisons cross-multiply by the (always positive) powers of
ten. -/
structure SrcWeight where
  num : Int
  dexp : Nat
deriving DecidableEq

/-- Comparison of two exact weights (a ≤ b as rationals). -/
def srcWeightLe (a b : SrcWeight) : Bool :=
  decide (a.num * (10 : Int) ^ b.dexp ≤ b.num * (10 : Int) ^ a.dexp)

/-- Unsigned decimal numeral as (scaled mantissa, decimal places). -/
def parseUnsigned? (r : List Char) : Option (Int × Nat) :=
  match r.dropWhile Char.isDigit with
  | [] =>
    if (r.takeWhile Char.isDigit).isEmpty then none
    else some ((digitsVal (r.takeWhile Char.isDigit) : Int), 0)
  | '.' :: fr =>
    if !(fr.dropWhile Char.isDigit).isEmpty then none
    else if (r.takeWhile Char.isDigit).isEmpty && fr.isEmpty then none
    else
      some ((digitsVal (r.takeWhile Char.isDigit) * 10 ^ fr.length +
        digitsVal fr : Int), fr.length)
  | _ => none

/-- JavaScript `Number()` on the descriptor payloads the script slices
off: empty means zero, otherwise an optionally signed plain decimal
numeral; anything else (including Infinity and scientific notation,
which the srcset grammar does not produce) is not a finite plain decimal
and is reported as `none` (the script then uses weight 0 either way). -/
def parseDecimal? (l : List Char) : Option (Int × Nat) :=
  if l.isEmpty then some (0, 0)
  else
    match l with
    | '-' :: r => (parseUnsigned? r).map (fun p => (-p.1, p.2))
    | '+' :: r => parseUnsigned? r
    | r => parseUnsigned? r

/-- The weight of one srcset descriptor: a trailing w gives the numeric
width, a trailing x gives the density scaled by 1000, everything else
(and non-finite numbers) weighs 0. -/
def descriptorWeight (d : List Char) : SrcWeight :=
  if (lowerL d).getLast? == some 'w' then
    match parseDecimal? (lowerL d).dropLast with
    | some p => ⟨p.1, p.2⟩
    | none => ⟨0, 0⟩
  else if (lowerL d).getLast? == some 'x' then
    match parseDecimal? (lowerL d).dropLast with
    | some p => ⟨p.1 * 1000, p.2⟩
    | none => ⟨0, 0⟩
  else ⟨0, 0⟩

/-- One srcset segment read as URL and descriptor weight
(`segment.split(/\s+/, 2)`). -/
def srcsetEntryOf (seg : List Char) : List Char × SrcWeight :=
  ((splitOnRuns isSpacey seg).headD [],
   descriptorWeight (((splitOnRuns isSpacey seg).drop 1).headD []))

/-- The trimmed, non-empty srcset segments with their weights. -/
def srcsetEntries (value : String) : List (List Char × SrcWeight) :=
  (((splitOnCharL ',' value.data).map trimSpaceyEnds).filter
    (fun s => !s.isEmpty)).map srcsetEntryOf

/-- Stable descending order on srcset entries by weight, modelling the
comparator (left, right) => right.weight - left.weight. -/
def weightDescLe (a b : List Char × SrcWeight) : Bool := srcWeightLe b.2 a.2

/-- `parseSrcsetUrls`: split the attribute on commas, trim, drop empty
segments, read URL and descriptor weight per segment, sort by weight
descending (stable), return the URLs. -/
def parseSrcsetUrls (value : String) : List String :=
  (((stableSort weightDescLe (srcsetEntries value)).map (fun e => e.1)).filter
    (fun u => !u.isEmpty)).map List.asString

/-- `toAbsoluteUrl`: sanitize, reject data/javascript pseudo-URLs, then
resolve against the base and keep only http(s) results.  The model
resolves absolute URLs and root-relative paths against an http(s) base;
other relative forms (protocol-relative or path-relative), which the
platform resolver also accepts, are outside the model and yield the empty
string. -/
def toAbsoluteUrl (candidate base : String) : String :=
  let t := sanitizeL candidate.data
  if t.isEmpty then ""
  else if ("data:").data.isPrefixOf t || ("javascript:").data.isPrefixOf t then ""
  else
    match parseUrlL t with
    | some (.http u) => urlToString u
    | some (.other _ _) => ""
    | none =>
      match parseUrlL base.data with
      | some (.http b) =>
        match t with
        | '/' :: '/' :: _ => ""
        | '/' :: _ =>
          let path := t.takeWhile (fun c => c != '?' && c != '#')
          let afterPath := t.dropWhile (fun c => c != '?' && c != '#')
          let query := afterPath.takeWhile (fun c => c != '#')
          urlToString ⟨b.secure, b.host, path, query⟩
        | _ => ""
      | _ => ""

/-- The attributes of one responsive-image source element the script
reads (`srcset`, `data-srcset`, `src`, `data-src`). -/
structure SourceAttrs where
  srcset : String
  dataSrcset : String
  src : String
  dataSrc : String
deriving DecidableEq

/-- The effective candidate-list attribute of a source element
(`attrs.srcset || attrs["data-srcset"] || ""`). -/
def srcsetAttr (attrs : SourceAttrs) : String :=
  if attrs.srcset ≠ "" then attrs.srcset else attrs.dataSrcset

/-- The effective single-URL attribute of a source element
(`attrs.src || attrs["data-src"] || ""`). -/
def srcAttr (attrs : SourceAttrs) : String :=
  if attrs.src ≠ "" then attrs.src else attrs.dataSrc

/-- The candidates a source element contributes from its candidate-list
attribute: the first two entries of the weight-sorted srcset list, each
resolved to an absolute URL and dropped when resolution fails. -/
def srcsetCandidates (attrs : SourceAttrs) (baseUrl : String) : List Candidate :=
  ((parseSrcsetUrls (srcsetAttr attrs)).take 2).filterMap
    (fun u =>
      if toAbsoluteUrl u baseUrl = "" then none
      else some (⟨toAbsoluteUrl u baseUrl, Kind.source⟩ : Candidate))

/-- The candidates pushed for one source element by
`collectImageCandidates` (lines 412-423): the srcset-derived candidates,
then the single-URL source attribute. -/
def sourceElementCandidates (attrs : SourceAttrs) (baseUrl : String) : List Candidate :=
  srcsetCandidates attrs baseUrl ++
    (if srcAttr attrs ≠ "" then
       (if toAbsoluteUrl (srcAttr attrs) baseUrl = "" then []
        else [(⟨toAbsoluteUrl (srcAttr attrs) baseUrl, Kind.source⟩ : Candidate)])
     else [])

/-! ### The main run: worker, merge, manufacturer fallback, statistics -/

/-- Terminal case of one pool worker invocation for one row. -/
inductive ResolveCase
  | curated | direct | unresolved
deriving DecidableEq

/-- One pool worker invocation (the closure passed to `runPool` in
`main`), instrumented with the case taken and the pages fetched and URLs
probed for the row.  A curated override short-circuits before any
network activity. -/
def workerRunT (fetchC : String → Option (List Candidate))
    (probe : String → Option ProbeResult) (r : Row) :
    Row × ResolveCase × List String × List String :=
  if safeHttpUrl (curatedOverrideFor r.id) ≠ "" then
    ({ r with image_url := safeHttpUrl (curatedOverrideFor r.id) }, .curated, [], [])
  else if (resolveImageForRowT fetchC probe r).1 ≠ "" then
    ({ r with image_url := (resolveImageForRowT fetchC probe r).1 }, .direct,
     (resolveImageForRowT fetchC probe r).2.1, (resolveImageForRowT fetchC probe r).2.2)
  else
    (r, .unresolved, (resolveImageForRowT fetchC probe r).2.1,
     (resolveImageForRowT fetchC probe r).2.2)

/-- Identity-keyed lookup into the pool results, modelling
`new Map(results.map(row => [id, row])).get(key)`: for duplicate keys the
last entry wins, hence the reversed first-match search. -/
def lookupById (key : String) (results : List Row) : Option Row :=
  results.reverse.find? (fun r => strTrim r.id == key)

/-- Normalised manufacturer key of the fallback index. -/
def normKey (r : Row) : String := (lowerL (sanitizeL r.manufacturer.data)).asString

/-- A row counts as resolved when its image_url passes `safeHttpUrl`. -/
def resolvedUrl (r : Row) : String := safeHttpUrl r.image_url

/-- One step of the fallback-index construction: record the row's
resolved image under its normalised manufacturer key when the key is
non-empty, the row is resolved, and the key is not taken yet. -/
def fallbackStep (idx : List (String × String)) (r : Row) : List (String × String) :=
  if normKey r ≠ "" ∧ resolvedUrl r ≠ "" ∧ (idx.lookup (normKey r)).isNone then
    idx ++ [(normKey r, resolvedUrl r)]
  else idx

/-- The manufacturer fallback index: walking the rows in order, the first
resolved image per non-empty normalised manufacturer key wins. -/
def buildFallbackIndex (rows : List Row) : List (String × String) :=
  rows.foldl fallbackStep []

/-- The backfill applied to one row by the fallback loop. -/
def applyFallback (idx : List (String × String)) (r : Row) : Row :=
  if resolvedUrl r ≠ "" then r
  else
    match idx.lookup (normKey r) with
    | some v => { r with image_url := v }
    | none => r

/-- Does the fallback loop count this row in the manufacturer-fallback
statistic? -/
def fallbackHit (idx : List (String × String)) (r : Row) : Bool :=
  resolvedUrl r == "" && (idx.lookup (normKey r)).isSome

/-- The whole manufacturer-fallback pass: build the index from the rows
as they stand after the direct pass, backfill every unresolved row with
an index hit, and report how many rows were backfilled. -/
def fallbackPass (rows : List Row) : List Row × Nat :=
  (rows.map (applyFallback (buildFallbackIndex rows)),
   rows.countP (fallbackHit (buildFallbackIndex rows)))

/-- Run statistics reported by `main`. -/
structure RunStats where
  updated : Nat
  curated : Nat
  mfr : Nat
deriving DecidableEq

/-- Everything `main` produces that the claims talk about. -/
structure RunOutcome where
  rows : List Row
  stats : RunStats
  results : List (Row × ResolveCase × List String × List String)
deriving DecidableEq

/-- The working copy of the rows, image_url cleared. -/
def clearedRows (rows : List Row) : List Row :=
  rows.map (fun r => { r with image_url := "" })

/-- The rows handed to the pool: those with a valid official_url. -/
def candidateRowsOf (rows : List Row) : List Row :=
  (clearedRows rows).filter (fun r => safeHttpUrl r.official_url ≠ "")

/-- The pool results (deterministic by the pool model below, so a plain
map over the candidate rows). -/
def poolResults (fetchC : String → Option (List Candidate))
    (probe : String → Option ProbeResult) (rows : List Row) :
    List (Row × ResolveCase × List String × List String) :=
  (candidateRowsOf rows).map (workerRunT fetchC probe)

/-- Merge the pool results back into the working rows by trimmed id with
last-wins map semantics, sanitising the copied value. -/
def mergedRows (fetchC : String → Option (List Candidate))
    (probe : String → Option ProbeResult) (rows : List Row) : List Row :=
  (clearedRows rows).map
    (fun w =>
      match lookupById (strTrim w.id) ((poolResults fetchC probe rows).map
          (fun x => x.1)) with
      | some u => { w with image_url := strSanitize u.image_url }
      | none => w)

/-- The `main` pipeline over in-memory rows: clear image_url, keep the
rows with a valid official_url as pool candidates, run the worker over
them, merge back by trimmed id, run the manufacturer fallback pass, and
count curated, direct and fallback updates. -/
def mainRun (fetchC : String → Option (List Candidate))
    (probe : String → Option ProbeResult) (rows : List Row) : RunOutcome :=
  ⟨(fallbackPass (mergedRows fetchC probe rows)).1,
   ⟨(poolResults fetchC probe rows).countP (fun x => x.2.1 == ResolveCase.curated) +
      (poolResults fetchC probe rows).countP (fun x => x.2.1 == ResolveCase.direct) +
      (fallbackPass (mergedRows fetchC probe rows)).2,
    (poolResults fetchC probe rows).countP (fun x => x.2.1 == ResolveCase.curated),
    (fallbackPass (mergedRows fetchC probe rows)).2⟩,
   poolResults fetchC probe rows⟩

/-! ### Metadata summary -/

/-- A JSON-ish metadata value (the summary only stores strings and
numbers). -/
inductive MVal
  | s (v : String)
  | n (v : Nat)
deriving DecidableEq

/-- The metadata record as an ordered key-value list (JavaScript object
with insertion order). -/
abbrev Meta := List (String × MVal)

/-- Property assignment on a JavaScript object: replace in place when the
key exists, append otherwise. -/
def setMeta (m : Meta) (k : String) (v : MVal) : Meta :=
  if (m.lookup k).isSome then m.map (fun kv => if kv.1 = k then (k, v) else kv)
  else m ++ [(k, v)]

def metadataNote : String :=
  "Image links are derived from official manufacturer pages with curated per-model overrides and same-manufacturer fallback when needed."

/-- `updateMetadata`: read-modify-write of the metadata record.  `now` is
the generation timestamp; the two counters are the fields of the `stats`
argument `main` passes (`curatedCount`, `manufacturerFallbackCount`). -/
def updateMetadata (prior : Meta) (rows : List Row) (now : String)
    (curatedCount mfrCount : Nat) : Meta :=
  setMeta
    (setMeta
      (setMeta
        (setMeta
          (setMeta prior ("manufacturer_image_enriched_at") (.s now))
          ("manufacturer_image_links") (.n (rows.countP (fun r => resolvedUrl r ≠ ""))))
        ("manufacturer_image_curated_overrides") (.n curatedCount))
      ("manufacturer_image_manufacturer_fallbacks") (.n mfrCount))
    ("manufacturer_image_note") (.s metadataNote)

/-! ### The worker-pool scheduler

`runPool` spawns a fixed number of runners that repeatedly take the next
index from a shared cursor (the read and increment are one synchronous,
hence atomic, step on the event loop), run the worker on that item, and
store the result in the slot of the item's original index.  The model is
a small-step machine: each runner is idle, working on an index, or done,
and a schedule is the interleaving of runner steps.  An idle step takes
the next cursor value (and retires the runner once the items are
exhausted); a working step completes the worker call and writes the
result slot.  The worker itself is a pure function of the item and its
index, faithful to the fact that the final image_url of an entry depends
only on that entry and the network's responses. -/

inductive WStatus
  | idle
  | working (idx : Nat)
  | done
deriving DecidableEq

structure PoolState (ρ : Type) where
  cursor : Nat
  results : List (Option ρ)
  workers : List WStatus
deriving DecidableEq

/-- Initial pool state: cursor 0, no results, every runner idle. -/
def poolInit (ρ : Type) (n c : Nat) : PoolState ρ :=
  ⟨0, List.replicate n none, List.replicate c .idle⟩

/-- One scheduling step: runner `w` acts.  Out-of-range runner choices
and retired runners leave the state unchanged. -/
def poolStep {α ρ : Type} (items : List α) (work : α → Nat → ρ)
    (s : PoolState ρ) (w : Nat) : PoolState ρ :=
  match s.workers[w]? with
  | some .idle =>
    if s.cursor < items.length then
      { s with cursor := s.cursor + 1, workers := s.workers.set w (.working s.cursor) }
    else { s with cursor := s.cursor + 1, workers := s.workers.set w .done }
  | some (.working i) =>
    match items[i]? with
    | some a =>
      { s with results := s.results.set i (some (work a i)), workers := s.workers.set w .idle }
    | none => { s with workers := s.workers.set w .idle }
  | _ => s

/-- Run a whole schedule (a list of runner choices). -/
def poolExec {α ρ : Type} (items : List α) (work : α → Nat → ρ)
    (s : PoolState ρ) (sched : List Nat) : PoolState ρ :=
  sched.foldl (poolStep items work) s

/-- Has every runner retired? -/
def poolDone {ρ : Type} (s : PoolState ρ) : Bool :=
  s.workers.all (fun st => st == .done)

/-- The results the pool must deliver: slot i holds the worker applied to
item i. -/
def expectedResults {α ρ : Type} (work : α → Nat → ρ) : List α → Nat → List (Option ρ)
  | [], _ => []
  | a :: rest, i => some (work a i) :: expectedResults work rest (i + 1)

/-- The value the pool must eventually store in slot `i`. -/
def expectedAt {α ρ : Type} (items : List α) (work : α → Nat → ρ) (i : Nat) : Option ρ :=
  (items[i]?).map (fun a => work a i)

/-- Invariant of the pool machine: results have the right length; a
runner working on `i` holds an index already drawn and in range; every
drawn in-range index is either already written with the worker's value or
held by some runner; once any runner has retired the cursor has passed
the end. -/
def PoolInv {α ρ : Type} (items : List α) (work : α → Nat → ρ) (s : PoolState ρ) : Prop :=
  s.results.length = items.length ∧
  (∀ (w i : Nat), s.workers[w]? = some (WStatus.working i) → i < s.cursor ∧ i < items.length) ∧
  (∀ i : Nat, i < items.length → i < s.cursor →
    (s.results[i]? = some (expectedAt items work i) ∨
      ∃ w : Nat, s.workers[w]? = some (WStatus.working i))) ∧
  ((∃ w : Nat, s.workers[w]? = some WStatus.done) → items.length ≤ s.cursor)

/-! ## Helper lemmas -/

theorem toNat_ofNat_valid {n : Nat} (h : n.isValidChar) : (Char.ofNat n).toNat = n := by
  simp [Char.ofNat, h, Char.ofNatAux, Char.toNat]
  rfl

theorem asciiLower_of_range {c : Char} (h1 : 65 ≤ c.toNat) (h2 : c.toNat ≤ 90) :
    asciiLower c = Char.ofNat (c.toNat + 32) := by
  unfold asciiLower
  rw [if_pos]
  simp only [Bool.and_eq_true, decide_eq_true_eq]
  exact ⟨h1, h2⟩

theorem asciiLower_of_out {c : Char} (h : ¬ (65 ≤ c.toNat ∧ c.toNat ≤ 90)) :
    asciiLower c = c := by
  unfold asciiLower
  rw [if_neg]
  simp only [Bool.and_eq_true, decide_eq_true_eq]
  exact h

theorem asciiLower_idem (c : Char) : asciiLower (asciiLower c) = asciiLower c := by
  by_cases h : 65 ≤ c.toNat ∧ c.toNat ≤ 90
  · have hv : (c.toNat + 32).isValidChar := by
      left
      omega
    have ht : (Char.ofNat (c.toNat + 32)).toNat = c.toNat + 32 := toNat_ofNat_valid hv
    rw [asciiLower_of_range h.1 h.2, asciiLower_of_out]
    rw [ht]
    omega
  · rw [asciiLower_of_out h, asciiLower_of_out h]

theorem lowerL_idem (l : List Char) : lowerL (lowerL l) = lowerL l := by
  simp [lowerL, Function.comp, asciiLower_idem]

theorem asciiLower_not_spacey {c : Char} (h : isSpacey c = false) :
    isSpacey (asciiLower c) = false := by
  by_cases hr : 65 ≤ c.toNat ∧ c.toNat ≤ 90
  · have hv : (c.toNat + 32).isValidChar := by
      left
      omega
    have ht : (Char.ofNat (c.toNat + 32)).toNat = c.toNat + 32 := toNat_ofNat_valid hv
    rw [asciiLower_of_range hr.1 hr.2]
    simp only [isSpacey, ht, Bool.or_eq_false_iff, decide_eq_false_iff_not,
      beq_eq_false_iff_ne, ne_eq]
    omega
  · rw [asciiLower_of_out hr]
    exact h

theorem lowerL_not_spacey {l : List Char} (h : ∀ c ∈ l, isSpacey c = false) :
    ∀ c ∈ lowerL l, isSpacey c = false := by
  intro c hc
  simp only [lowerL, List.mem_map] at hc
  obtain ⟨d, hd, rfl⟩ := hc
  exact asciiLower_not_spacey (h d hd)

theorem squash_of_no_spacey {l : List Char} (h : ∀ c ∈ l, isSpacey c = false) :
    squash l = l := by
  induction l with
  | nil => rfl
  | cons c rest ih =>
    have hc : isSpacey c = false := h c (List.mem_cons_self ..)
    have hrest : ∀ d ∈ rest, isSpacey d = false := fun d hd => h d (List.mem_cons_of_mem _ hd)
    cases rest with
    | nil => simp [squash, hc]
    | cons d rest2 =>
      have hd : isSpacey d = false := hrest d (List.mem_cons_self ..)
      simp [squash, hc, hd, ih hrest]

theorem dropLeadSpace_of_no_spacey {l : List Char} (h : ∀ c ∈ l, isSpacey c = false) :
    dropLeadSpace l = l := by
  cases l with
  | nil => rfl
  | cons c rest =>
    have hc : isSpacey c = false := h c (List.mem_cons_self ..)
    have : (c == ' ') = false := by
      simp only [beq_eq_false_iff_ne, ne_eq]
      intro hceq
      subst hceq
      simp [isSpacey] at hc
    simp [dropLeadSpace, List.dropWhile_cons, this]

theorem sanitizeL_of_no_spacey {l : List Char} (h : ∀ c ∈ l, isSpacey c = false) :
    sanitizeL l = l := by
  have hsq := squash_of_no_spacey h
  unfold sanitizeL trimSpace
  rw [hsq, dropLeadSpace_of_no_spacey h, dropLeadSpace_of_no_spacey (by simpa using h),
    List.reverse_reverse]

theorem isSub_iff_infix {needle l : List Char} : isSub needle l = true ↔ needle <:+: l := by
  induction l with
  | nil => simp [isSub, List.infix_nil, List.isEmpty_iff]
  | cons c rest ih =>
    simp [isSub, List.infix_cons_iff, List.isPrefixOf_iff_prefix, ih]

theorem isSub_self (l : List Char) : isSub l l = true :=
  isSub_iff_infix.mpr (List.infix_refl l)

theorem isSub_of_suffix {a l : List Char} (h : a <:+ l) : isSub a l = true :=
  isSub_iff_infix.mpr h.isInfix

theorem takeWhile_append_all {p : Char → Bool} {a : List Char} (b : List Char)
    (h : ∀ c ∈ a, p c = true) : (a ++ b).takeWhile p = a ++ b.takeWhile p := by
  induction a with
  | nil => simp
  | cons c rest ih =>
    have hc := h c (List.mem_cons_self ..)
    simp [List.takeWhile_cons, hc, ih (fun d hd => h d (List.mem_cons_of_mem _ hd))]

theorem dropWhile_append_all {p : Char → Bool} {a : List Char} (b : List Char)
    (h : ∀ c ∈ a, p c = true) : (a ++ b).dropWhile p = b.dropWhile p := by
  induction a with
  | nil => simp
  | cons c rest ih =>
    have hc := h c (List.mem_cons_self ..)
    simp [List.dropWhile_cons, hc, ih (fun d hd => h d (List.mem_cons_of_mem _ hd))]

theorem takeWhile_all_eq_self {p : Char → Bool} {l : List Char}
    (h : ∀ c ∈ l, p c = true) : l.takeWhile p = l := by
  induction l with
  | nil => rfl
  | cons c rest ih =>
    simp [List.takeWhile_cons, h c (List.mem_cons_self ..),
      ih (fun d hd => h d (List.mem_cons_of_mem _ hd))]

theorem no_spacey_of_any_false {cs : List Char} (hg : cs.any isSpacey = false) :
    ∀ c ∈ cs, isSpacey c = false := by
  intro c hc
  rw [List.any_eq_false] at hg
  simpa using hg c hc

theorem hostOkChar_true {c : Char} (h : hostOkChar c = true) :
    isSpacey c = false ∧ c ≠ ':' ∧ c ≠ '@' ∧ c ≠ '/' ∧ c ≠ '?' ∧ c ≠ '#' := by
  simp only [hostOkChar, Bool.and_eq_true, Bool.not_eq_true', bne_iff_ne, ne_eq] at h
  exact ⟨h.1.1.1.1.1, h.1.1.1.1.2, h.1.1.1.2, h.1.1.2, h.1.2, h.2⟩

/-- Components produced by a successful http(s) parse are well formed. -/
theorem parseUrlL_wf {cs : List Char} {u : HttpUrl}
    (h : parseUrlL cs = some (.http u)) : u.wf = true := by
  unfold parseUrlL at h
  split at h
  · exact absurd h (by simp)
  next hguard =>
  rcases heq : cs.dropWhile (fun c => c != ':') with _ | ⟨head, afterColon⟩
  · simp only [heq] at h
    exact absurd h (by simp)
  · simp only [heq] at h
    split at h
    · exact absurd h (by simp)
    split at h
    swap
    · exact absurd h (by simp)
    split at h
    swap
    · exact absurd h (by simp)
    rename_i rest2
    split at h
    · exact absurd h (by simp)
    next hhost =>
      rw [Option.some_inj, ParsedUrl.http.injEq] at h
      rw [Bool.or_eq_true] at hhost
      push_neg at hhost
      have hh1 : (lowerL (rest2.takeWhile fun c => c != '/' && c != '?' && c != '#')).isEmpty = false := by
        cases hv : (lowerL (rest2.takeWhile fun c => c != '/' && c != '?' && c != '#')).isEmpty
        · rfl
        · exact absurd hv hhost.1
      have hh2 : (lowerL (rest2.takeWhile fun c => c != '/' && c != '?' && c != '#')).all hostOkChar = true := by
        cases hv : (lowerL (rest2.takeWhile fun c => c != '/' && c != '?' && c != '#')).all hostOkChar
        · refine absurd ?_ hhost.2
          rw [hv]
          rfl
        · rfl
      have hmemcs : ∀ d, d ∈ rest2 → d ∈ cs := by
        intro d hd
        have h2 : d ∈ cs.dropWhile (fun c => c != ':') := by
          rw [heq]
          exact List.mem_cons_of_mem _ (List.mem_cons_of_mem _ (List.mem_cons_of_mem _ hd))
        exact (List.dropWhile_sublist _).mem h2
      have hnospace : ∀ d ∈ rest2, isSpacey d = false := by
        intro d hd
        exact no_spacey_of_any_false (by simpa using hguard) d (hmemcs d hd)
      rw [← h]
      simp only [HttpUrl.wf, Bool.and_eq_true]
      refine ⟨⟨⟨⟨⟨⟨?_, ?_⟩, ?_⟩, ?_⟩, ?_⟩, ?_⟩, ?_⟩
      · rw [hh1]
        rfl
      · exact hh2
      · rw [lowerL_idem]
        exact beq_self_eq_true _
      · -- the path starts with a slash
        cases hp0 : ((rest2.dropWhile fun c => c != '/' && c != '?' && c != '#').takeWhile
            fun c => c != '?' && c != '#').isEmpty
        · rw [if_neg (by simp [hp0])]
          cases hAH : rest2.dropWhile (fun c => c != '/' && c != '?' && c != '#') with
          | nil =>
            rw [hAH] at hp0
            simp at hp0
          | cons a tl =>
            have ha : (a != '/' && a != '?' && a != '#') = false := by
              have h5 := List.head?_dropWhile_not (fun c => c != '/' && c != '?' && c != '#') rest2
              rw [hAH] at h5
              simpa using h5
            rw [hAH] at hp0
            cases hq : (a != '?' && a != '#')
            · rw [List.takeWhile_cons, hq] at hp0
              simp at hp0
            · have ha2 : a = '/' := by
                rcases Bool.and_eq_false_iff.mp ha with h1 | h2
                · rcases Bool.and_eq_false_iff.mp h1 with h3 | h4
                  · simpa using h3
                  · rw [Bool.and_eq_true] at hq
                    rw [hq.1] at h4
                    cases h4
                · rw [Bool.and_eq_true] at hq
                  rw [hq.2] at h2
                  cases h2
              subst ha2
              rw [List.takeWhile_cons, hq]
              rfl
        · rw [if_pos (by simp [hp0])]
          rfl
      · -- path characters: not spacey, no query or fragment markers
        cases hp0 : ((rest2.dropWhile fun c => c != '/' && c != '?' && c != '#').takeWhile
            fun c => c != '?' && c != '#').isEmpty
        · rw [if_neg (by simp [hp0])]
          rw [List.all_eq_true]
          intro d hd
          have hd1 : d ∈ rest2.dropWhile (fun c => c != '/' && c != '?' && c != '#') :=
            (List.takeWhile_sublist _).mem hd
          have hd2 := List.mem_takeWhile_imp hd
          have hd3 : d ∈ rest2 := (List.dropWhile_sublist _).mem hd1
          simp only [Bool.and_eq_true] at hd2
          simp [hnospace d hd3, hd2.1, hd2.2]
        · rw [if_pos (by simp [hp0])]
          simp [isSpacey]
      · -- the query is empty or starts with a question mark
        cases hAP : ((rest2.dropWhile fun c => c != '/' && c != '?' && c != '#').dropWhile
            fun c => c != '?' && c != '#') with
        | nil => simp
        | cons a tl =>
          have ha : (a != '?' && a != '#') = false := by
            have h5 := List.head?_dropWhile_not (fun c => c != '?' && c != '#')
              (rest2.dropWhile fun c => c != '/' && c != '?' && c != '#')
            rw [hAP] at h5
            simpa using h5
          cases hq : (a != '#')
          · rw [List.takeWhile_cons, hq]
            simp
          · have ha2 : a = '?' := by
              rcases Bool.and_eq_false_iff.mp ha with h1 | h2
              · simpa using h1
              · rw [hq] at h2
                cases h2
            subst ha2
            rw [List.takeWhile_cons, hq]
            simp
      · -- query characters: not spacey, no fragment marker
        rw [List.all_eq_true]
        intro d hd
        have hd1 : d ∈ ((rest2.dropWhile fun c => c != '/' && c != '?' && c != '#').dropWhile
            fun c => c != '?' && c != '#') := (List.takeWhile_sublist _).mem hd
        have hd2 := List.mem_takeWhile_imp hd
        have hd3 : d ∈ rest2 := by
          have hd4 : d ∈ rest2.dropWhile (fun c => c != '/' && c != '?' && c != '#') :=
            (List.dropWhile_sublist _).mem hd1
          exact (List.dropWhile_sublist _).mem hd4
        simp [hnospace d hd3, hd2]

/-- Re-parsing the serialisation of a well-formed http(s) URL recovers
exactly the same components. -/
theorem parseUrlL_roundtrip {u : HttpUrl} (hwf : u.wf = true) :
    parseUrlL (urlToStringL u) = some (.http u) := by
  obtain ⟨sec, host, path, query⟩ := u
  simp only [HttpUrl.wf, Bool.and_eq_true] at hwf
  obtain ⟨⟨⟨⟨⟨⟨hne, hok⟩, hlow⟩, hshape⟩, hpathall⟩, hqshape⟩, hqall⟩ := hwf
  have hokAll : ∀ c ∈ host, hostOkChar c = true := List.all_eq_true.mp hok
  have hlow2 : lowerL host = host := eq_of_beq hlow
  have hpall : ∀ c ∈ path, (!isSpacey c && c != '?' && c != '#') = true :=
    List.all_eq_true.mp hpathall
  have hqall2 : ∀ c ∈ query, (!isSpacey c && c != '#') = true := List.all_eq_true.mp hqall
  have hheadp : path.head? = some '/' := eq_of_beq hshape
  have hie : host.isEmpty = false := by
    cases hv : host.isEmpty
    · rfl
    · rw [hv] at hne
      exact absurd hne (by simp)
  have hhostp1 : ∀ c ∈ host, (c != '/' && c != '?' && c != '#') = true := by
    intro c hc
    obtain ⟨-, -, -, h4, h5, h6⟩ := hostOkChar_true (hokAll c hc)
    simp only [Bool.and_eq_true, bne_iff_ne, ne_eq]
    exact ⟨⟨h4, h5⟩, h6⟩
  have hpathp2 : ∀ c ∈ path, (c != '?' && c != '#') = true := by
    intro c hc
    have hcp := hpall c hc
    simp only [Bool.and_eq_true] at hcp
    simp only [Bool.and_eq_true]
    exact ⟨hcp.1.2, hcp.2⟩
  have hqhead : query = [] ∨ ∃ qt, query = '?' :: qt := by
    cases query with
    | nil => exact Or.inl rfl
    | cons q0 qt =>
      refine Or.inr ⟨qt, ?_⟩
      rw [Bool.or_eq_true] at hqshape
      rcases hqshape with h1 | h2
      · simp at h1
      · have h3 := eq_of_beq h2
        simp only [List.head?_cons, Option.some_inj] at h3
        rw [h3]
  have hqtw : query.takeWhile (fun c => c != '?' && c != '#') = [] := by
    rcases hqhead with h | ⟨qt, h⟩
    · rw [h]
      rfl
    · rw [h, List.takeWhile_cons]
      rfl
  have hqdw : query.dropWhile (fun c => c != '?' && c != '#') = query := by
    rcases hqhead with h | ⟨qt, h⟩
    · rw [h]
      rfl
    · rw [h, List.dropWhile_cons]
      rfl
  have hqkeep : query.takeWhile (fun c => c != '#') = query := by
    refine takeWhile_all_eq_self ?_
    intro c hc
    have hcq := hqall2 c hc
    simp only [Bool.and_eq_true] at hcq
    exact hcq.2
  obtain ⟨ptail, rfl⟩ : ∃ t, path = '/' :: t := by
    cases path with
    | nil => simp at hheadp
    | cons p0 pt =>
      refine ⟨pt, ?_⟩
      simp only [List.head?_cons, Option.some_inj] at hheadp
      rw [hheadp]
  have hhostRaw : ((host ++ ('/' :: ptail)) ++ query).takeWhile
      (fun c => c != '/' && c != '?' && c != '#') = host := by
    rw [List.append_assoc, List.cons_append, takeWhile_append_all _ hhostp1,
      List.takeWhile_cons]
    simp
  have hafterHost : ((host ++ ('/' :: ptail)) ++ query).dropWhile
      (fun c => c != '/' && c != '?' && c != '#') = ('/' :: ptail) ++ query := by
    rw [List.append_assoc, List.cons_append, dropWhile_append_all _ hhostp1,
      List.dropWhile_cons]
    simp
  have hpath0 : (('/' :: ptail) ++ query).takeWhile (fun c => c != '?' && c != '#')
      = '/' :: ptail := by
    rw [takeWhile_append_all _ hpathp2, hqtw, List.append_nil]
  have hafterPath : (('/' :: ptail) ++ query).dropWhile (fun c => c != '?' && c != '#')
      = query := by
    rw [dropWhile_append_all _ hpathp2, hqdw]
  have hanyfalse : ∀ S : List Char, S.any isSpacey = false →
      (((S ++ host) ++ ('/' :: ptail)) ++ query).any isSpacey = false := by
    intro S hS
    rw [List.any_append, List.any_append, List.any_append, hS]
    have h1 : host.any isSpacey = false := by
      rw [List.any_eq_false]
      intro c hc
      simpa using (hostOkChar_true (hokAll c hc)).1
    have h2 : ('/' :: ptail).any isSpacey = false := by
      rw [List.any_eq_false]
      intro c hc
      have hcp := hpall c hc
      simp only [Bool.and_eq_true, Bool.not_eq_true'] at hcp
      simp [hcp.1.1]
    have h3 : query.any isSpacey = false := by
      rw [List.any_eq_false]
      intro c hc
      have hcq := hqall2 c hc
      simp only [Bool.and_eq_true, Bool.not_eq_true'] at hcq
      simp [hcq.1]
    rw [h1, h2, h3]
    rfl
  cases sec with
  | false =>
    have hg : (urlToStringL ⟨false, host, '/' :: ptail, query⟩).any isSpacey = false :=
      hanyfalse (("http://").data) (by decide)
    have htake : (urlToStringL ⟨false, host, '/' :: ptail, query⟩).takeWhile
        (fun c => c != ':') = ("http").data := rfl
    have hdrop : (urlToStringL ⟨false, host, '/' :: ptail, query⟩).dropWhile
        (fun c => c != ':') = ':' :: '/' :: '/' :: ((host ++ ('/' :: ptail)) ++ query) := rfl
    have hvs : validScheme (lowerL (("http").data)) = true := rfl
    have hlsc : lowerL (("http").data) = ("http").data := rfl
    simp only [parseUrlL, hg, htake, hdrop, hvs, hlsc, hhostRaw, hafterHost, hlow2, hie,
      hok, hpath0, hafterPath, hqkeep, Bool.false_eq_true, if_false, List.isEmpty_cons]
    simp
    decide
  | true =>
    have hg : (urlToStringL ⟨true, host, '/' :: ptail, query⟩).any isSpacey = false :=
      hanyfalse (("https://").data) (by decide)
    have htake : (urlToStringL ⟨true, host, '/' :: ptail, query⟩).takeWhile
        (fun c => c != ':') = ("https").data := rfl
    have hdrop : (urlToStringL ⟨true, host, '/' :: ptail, query⟩).dropWhile
        (fun c => c != ':') = ':' :: '/' :: '/' :: ((host ++ ('/' :: ptail)) ++ query) := rfl
    have hvs : validScheme (lowerL (("https").data)) = true := rfl
    have hlsc : lowerL (("https").data) = ("https").data := rfl
    simp only [parseUrlL, hg, htake, hdrop, hvs, hlsc, hhostRaw, hafterHost, hlow2, hie,
      hok, hpath0, hafterPath, hqkeep, Bool.false_eq_true, if_false, List.isEmpty_cons]
    simp
    decide

theorem parseUrlL_no_spacey {cs : List Char} {x : ParsedUrl} (h : parseUrlL cs = some x) :
    cs.any isSpacey = false := by
  unfold parseUrlL at h
  split at h
  · exact absurd h (by simp)
  next hg =>
    cases hv : cs.any isSpacey
    · rfl
    · exact absurd hv hg

/-- Every `safeHttpUrl` output is either empty or the serialisation of a
well-formed parsed URL that re-parses to itself. -/
theorem safeHttpUrl_cases (s : String) :
    safeHttpUrl s = "" ∨
      ∃ u : HttpUrl, u.wf = true ∧ safeHttpUrl s = urlToString u ∧
        parseUrlL (safeHttpUrl s).data = some (.http u) := by
  have hdef : safeHttpUrl s =
      (if (sanitizeL s.data).isEmpty then ""
       else
         match parseUrlL (sanitizeL s.data) with
         | some (.http u) => urlToString u
         | _ => "") := rfl
  by_cases he : (sanitizeL s.data).isEmpty = true
  · left
    rw [hdef, if_pos he]
  · rw [hdef, if_neg he]
    cases hp : parseUrlL (sanitizeL s.data) with
    | none => exact Or.inl rfl
    | some x =>
      cases x with
      | http u =>
        refine Or.inr ⟨u, parseUrlL_wf hp, rfl, ?_⟩
        show parseUrlL (urlToString u).data = some (.http u)
        have hd : (urlToString u).data = urlToStringL u := rfl
        rw [hd]
        exact parseUrlL_roundtrip (parseUrlL_wf hp)
      | other a b => exact Or.inl rfl

theorem urlToStringL_isEmpty (u : HttpUrl) : (urlToStringL u).isEmpty = false := by
  obtain ⟨sec, host, path, query⟩ := u
  cases sec <;> simp [urlToStringL]

theorem strSanitize_safeHttpUrl (s : String) :
    strSanitize (safeHttpUrl s) = safeHttpUrl s := by
  rcases safeHttpUrl_cases s with h | ⟨u, hwf, heq, hp⟩
  · rw [h]
    rfl
  · rw [heq]
    have hns : ∀ c ∈ urlToStringL u, isSpacey c = false := by
      have hany : (urlToStringL u).any isSpacey = false :=
        parseUrlL_no_spacey (parseUrlL_roundtrip hwf)
      rw [List.any_eq_false] at hany
      intro c hc
      simpa using hany c hc
    show (sanitizeL (urlToString u).data).asString = urlToString u
    have hd : (urlToString u).data = urlToStringL u := rfl
    rw [hd, sanitizeL_of_no_spacey hns]
    rfl

theorem safeHttpUrl_idem (s : String) : safeHttpUrl (safeHttpUrl s) = safeHttpUrl s := by
  rcases safeHttpUrl_cases s with h | ⟨u, hwf, heq, hp⟩
  · rw [h]
    rfl
  · rw [heq]
    have hns : ∀ c ∈ urlToStringL u, isSpacey c = false := by
      have hany : (urlToStringL u).any isSpacey = false :=
        parseUrlL_no_spacey (parseUrlL_roundtrip hwf)
      rw [List.any_eq_false] at hany
      intro c hc
      simpa using hany c hc
    unfold safeHttpUrl
    have hd : (urlToString u).data = urlToStringL u := rfl
    rw [hd, sanitizeL_of_no_spacey hns]
    rw [if_neg (by simp [urlToStringL_isEmpty])]
    rw [parseUrlL_roundtrip hwf]

/-- A non-empty `safeHttpUrl` output is itself `safeHttpUrl`-valid. -/
theorem safeHttpUrl_of_ne {s : String} (h : safeHttpUrl s ≠ "") :
    safeHttpUrl (safeHttpUrl s) ≠ "" := by
  rw [safeHttpUrl_idem]
  exact h

/-! ### Probing-loop characterisation -/

/-- The probing loop returns exactly the URL of the first candidate in
ranked order that passes the acceptance condition, or the empty string. -/
theorem probeLoopT_fst (probe : String → Option ProbeResult) (l : List ScoredCandidate) :
    (probeLoopT probe l).1 =
      ((l.find? (acceptsCandidate probe)).map (fun c => c.url)).getD "" := by
  induction l with
  | nil => rfl
  | cons c rest ih =>
    by_cases hhb : hardBlocked c.url = true
    · have hacc : acceptsCandidate probe c = false := by
        simp [acceptsCandidate, hhb]
      rw [List.find?_cons_of_neg _ (by simp [hacc])]
      simp only [probeLoopT, hhb, if_true]
      exact ih
    · rw [Bool.not_eq_true] at hhb
      cases hp : probe c.url with
      | none =>
        have hacc : acceptsCandidate probe c = false := by
          simp [acceptsCandidate, hhb, hp]
        rw [List.find?_cons_of_neg _ (by simp [hacc])]
        simp only [probeLoopT, hhb, Bool.false_eq_true, if_false, hp]
        exact ih
      | some p =>
        by_cases hlr : lenRejected p = true
        · have hacc : acceptsCandidate probe c = false := by
            simp [acceptsCandidate, hhb, hp, hlr]
          rw [List.find?_cons_of_neg _ (by simp [hacc])]
          simp only [probeLoopT, hhb, Bool.false_eq_true, if_false, hp, hlr, if_true]
          exact ih
        · rw [Bool.not_eq_true] at hlr
          by_cases hsc : 20 ≤ c.score + sizeBonus p.contentLength
          · have hacc : acceptsCandidate probe c = true := by
              simp [acceptsCandidate, hhb, hp, hlr, hsc]
            rw [List.find?_cons_of_pos _ hacc]
            simp only [probeLoopT, hhb, Bool.false_eq_true, if_false, hp, hlr, if_pos hsc]
            rfl
          · have hacc : acceptsCandidate probe c = false := by
              simp [acceptsCandidate, hhb, hp, hlr, hsc]
            rw [List.find?_cons_of_neg _ (by simp [hacc])]
            simp only [probeLoopT, hhb, Bool.false_eq_true, if_false, hp, hlr, if_neg hsc]
            exact ih

/-- No more candidates are probed than the ranked slice holds. -/
theorem probeLoopT_probed_length (probe : String → Option ProbeResult)
    (l : List ScoredCandidate) : (probeLoopT probe l).2.length ≤ l.length := by
  induction l with
  | nil => simp [probeLoopT]
  | cons c rest ih =>
    by_cases hhb : hardBlocked c.url = true
    · simp only [probeLoopT, hhb, if_true]
      exact Nat.le_succ_of_le ih
    · rw [Bool.not_eq_true] at hhb
      cases hp : probe c.url with
      | none =>
        simp only [probeLoopT, hhb, Bool.false_eq_true, if_false, hp, List.length_cons]
        exact Nat.succ_le_succ ih
      | some p =>
        by_cases hlr : lenRejected p = true
        · simp only [probeLoopT, hhb, Bool.false_eq_true, if_false, hp, hlr, if_true,
            List.length_cons]
          exact Nat.succ_le_succ ih
        · rw [Bool.not_eq_true] at hlr
          by_cases hsc : 20 ≤ c.score + sizeBonus p.contentLength
          · simp only [probeLoopT, hhb, Bool.false_eq_true, if_false, hp, hlr, if_pos hsc]
            simp
          · simp only [probeLoopT, hhb, Bool.false_eq_true, if_false, hp, hlr, if_neg hsc,
              List.length_cons]
            exact Nat.succ_le_succ ih

/-- Hard-blocked candidates are never probed, independent of score. -/
theorem probeLoopT_probed_not_blocked (probe : String → Option ProbeResult)
    (l : List ScoredCandidate) :
    ∀ v ∈ (probeLoopT probe l).2, hardBlocked v = false := by
  induction l with
  | nil => simp [probeLoopT]
  | cons c rest ih =>
    intro v hv
    by_cases hhb : hardBlocked c.url = true
    · simp only [probeLoopT, hhb, if_true] at hv
      exact ih v hv
    · rw [Bool.not_eq_true] at hhb
      cases hp : probe c.url with
      | none =>
        simp only [probeLoopT, hhb, Bool.false_eq_true, if_false, hp, List.mem_cons] at hv
        rcases hv with rfl | hv
        · exact hhb
        · exact ih v hv
      | some p =>
        by_cases hlr : lenRejected p = true
        · simp only [probeLoopT, hhb, Bool.false_eq_true, if_false, hp, hlr, if_true,
            List.mem_cons] at hv
          rcases hv with rfl | hv
          · exact hhb
          · exact ih v hv
        · rw [Bool.not_eq_true] at hlr
          by_cases hsc : 20 ≤ c.score + sizeBonus p.contentLength
          · simp only [probeLoopT, hhb, Bool.false_eq_true, if_false, hp, hlr,
              if_pos hsc, List.mem_cons] at hv
            rcases hv with rfl | hv
            · exact hhb
            · simp at hv
          · simp only [probeLoopT, hhb, Bool.false_eq_true, if_false, hp, hlr,
              if_neg hsc, List.mem_cons] at hv
            rcases hv with rfl | hv
            · exact hhb
            · exact ih v hv

/-- Helper for C7: a candidate whose probe reports a positive content
length below the minimum threshold can never be the probing loop's
result. -/
theorem probeLoopT_ne_of_rejected (probe : String → Option ProbeResult)
    (l : List ScoredCandidate) {u : String} {p : ProbeResult} (hp : probe u = some p)
    (hpos : 0 < p.contentLength) (hlt : p.contentLength < minContentLength)
    (hne : u ≠ "") : (probeLoopT probe l).1 ≠ u := by
  rw [probeLoopT_fst]
  cases hf : l.find? (acceptsCandidate probe) with
  | none =>
    simpa using Ne.symm hne
  | some c =>
    simp only [Option.map_some', Option.getD_some]
    intro hcu
    have hacc := List.find?_some hf
    have hlr : lenRejected p = true := by
      simp [lenRejected, hpos, hlt]
    rw [acceptsCandidate, hcu, hp] at hacc
    simp [hlr] at hacc

/-- C2: for every entry that reaches direct resolution, at most 16
candidates (the top slice of the list sorted descending by static score)
are ever probed; candidates whose URL contains a hard-block image hint
are skipped independent of their score; the resolved URL is exactly the
first non-skipped candidate in ranked order whose probe succeeds (probe
evidence present and not rejected by the minimum-content rule, per the
prober contract) and whose effective score (static plus size bonus) is at
least 20; if no such candidate exists among the top 16, the entry
resolves to the empty string. -/
theorem claim2_ranked_probe_selection (cands : List Candidate) (officialHost : List Char)
    (tokens : List (List Char)) (probe : String → Option ProbeResult) :
    (probeLoopT probe (rankCandidates cands officialHost tokens)).2.length ≤
      maxCandidatesToProbe ∧
    (∀ v ∈ (probeLoopT probe (rankCandidates cands officialHost tokens)).2,
      hardBlocked v = false) ∧
    (probeLoopT probe (rankCandidates cands officialHost tokens)).1 =
      (((rankCandidates cands officialHost tokens).find? (acceptsCandidate probe)).map
        (fun c => c.url)).getD "" ∧
    ((rankCandidates cands officialHost tokens).find? (acceptsCandidate probe) = none →
      (probeLoopT probe (rankCandidates cands officialHost tokens)).1 = "") := by
  refine ⟨?_, probeLoopT_probed_not_blocked probe _, probeLoopT_fst probe _, ?_⟩
  · refine le_trans (probeLoopT_probed_length probe _) ?_
    unfold rankCandidates
    exact List.length_take_le _ _
  · intro hf
    rw [probeLoopT_fst, hf]
    rfl

/-- Witness for C2 at a concrete ranked probe run: one high-scoring
candidate, an accepting probe. -/
theorem claim2_witness :
    (probeLoopT (fun _ => some ⟨"image/jpeg", 90000⟩)
      (rankCandidates [⟨"https://v.example/a.jpg", Kind.og⟩] (("v.example").data) [])).2.length ≤
      maxCandidatesToProbe ∧
    (probeLoopT (fun _ => some ⟨"image/jpeg", 90000⟩)
      (rankCandidates [⟨"https://v.example/a.jpg", Kind.og⟩] (("v.example").data) [])).1 =
      "https://v.example/a.jpg" := by
  have h := claim2_ranked_probe_selection [⟨"https://v.example/a.jpg", Kind.og⟩]
    (("v.example").data) [] (fun _ => some ⟨"image/jpeg", 90000⟩)
  refine ⟨h.1, ?_⟩
  rw [h.2.2.1]
  decide

/-- C7: a probed candidate whose probe reports a positive content length
strictly below the minimum-content threshold is rejected and can never
become the resolved image URL, even when its static score exceeds the
acceptance threshold. -/
theorem claim7_undersized_never_resolved (fetchC : String → Option (List Candidate))
    (probe : String → Option ProbeResult) (row : Row) (u : String) (p : ProbeResult)
    (hp : probe u = some p) (hpos : 0 < p.contentLength)
    (hlt : p.contentLength < minContentLength) (hne : u ≠ "") :
    (resolveImageForRowT fetchC probe row).1 ≠ u := by
  unfold resolveImageForRowT
  split
  · exact Ne.symm hne
  split
  · split
    · exact Ne.symm hne
    · split
      · exact Ne.symm hne
      · exact probeLoopT_ne_of_rejected probe _ hp hpos hlt hne
  · exact Ne.symm hne

/-- Witness for C7: a 1500-byte probe answer on a maximally scored
candidate does not resolve. -/
theorem claim7_witness :
    (resolveImageForRowT (fun _ => some [⟨"https://v.example/big.jpg", Kind.og⟩])
      (fun _ => some ⟨"image/jpeg", 1500⟩)
      ⟨"i", "n", "s", "m", "https://v.example/p", ""⟩).1 ≠ "https://v.example/big.jpg" :=
  claim7_undersized_never_resolved _ _ _ _ ⟨"image/jpeg", 1500⟩ rfl (by decide) (by decide)
    (by decide)

/-- C10: a row whose official host equals, or is a subdomain of, one of
the disallowed source hosts (wikipedia.org, wikimedia.org,
kickstarter.com, indiegogo.com) yields an empty direct resolution without
fetching any page or probing any candidate, so only a curated override or
the manufacturer-fallback pass can give such an entry an image. -/
theorem claim10_disallowed_host_no_fetch (fetchC : String → Option (List Candidate))
    (probe : String → Option ProbeResult) (row : Row) (u : HttpUrl)
    (hparse : parseUrlL (safeHttpUrl row.official_url).data = some (.http u))
    (hdis : disallowedSourceHostHints.any (fun h => hasHostHint u.host h.data) = true) :
    resolveImageForRowT fetchC probe row = ("", [], []) := by
  by_cases h0 : safeHttpUrl row.official_url = ""
  · unfold resolveImageForRowT
    rw [if_pos h0]
  · simp only [resolveImageForRowT, hparse]
    rw [if_neg h0, if_pos hdis]

/-- Witness for C10: a wikipedia official URL is refused before any
network activity. -/
theorem claim10_witness :
    resolveImageForRowT (fun _ => some [⟨"https://x.example/a.jpg", Kind.og⟩])
      (fun _ => some ⟨"image/jpeg", 90000⟩)
      ⟨"i", "n", "s", "m", "https://en.wikipedia.org/wiki/Thing", ""⟩ = ("", [], []) :=
  claim10_disallowed_host_no_fetch _ _ _
    ⟨true, ("en.wikipedia.org").data, ("/wiki/Thing").data, []⟩ (by decide) (by decide)

/-! ### Scorer bounds and the social-host claims -/

theorem typeWeight_le (k : Kind) : typeWeight k ≤ 70 := by
  cases k <;> decide

theorem typeWeight_ge (k : Kind) : 12 ≤ typeWeight k := by
  cases k <;> decide

theorem domainAffinity_bounds (a b : List Char) :
    0 ≤ domainAffinityScore a b ∧ domainAffinityScore a b ≤ 60 := by
  unfold domainAffinityScore
  split_ifs <;> norm_num

theorem domainAffinity_of_same {a b : List Char}
    (hs : normalizeRootDomain a = normalizeRootDomain b)
    (hne : normalizeRootDomain a ≠ []) : domainAffinityScore a b = 60 := by
  unfold domainAffinityScore
  rw [if_neg, if_pos hs]
  simp only [Bool.or_eq_true, List.isEmpty_iff]
  rw [← hs]
  simp [hne]

theorem pathSignalScore_le (path : List Char) : pathSignalScore path ≤ 14 := by
  unfold pathSignalScore
  split_ifs <;> norm_num

theorem tokenScore_bounds (tokens : List (List Char)) (path : List Char) :
    0 ≤ tokenScore tokens path ∧ tokenScore tokens path ≤ 36 := by
  unfold tokenScore
  refine ⟨le_min (by positivity) (by norm_num), min_le_right _ _⟩

theorem dimBonus_bounds (path : List Char) : 0 ≤ dimBonus path ∧ dimBonus path ≤ 10 := by
  unfold dimBonus
  rcases hds : dimsScan path with - | ⟨w, ht⟩
  · norm_num
  · simp only []
    split_ifs <;> norm_num

theorem socialHit_of_hostHint {host : List Char} {h : String} (hm : h ∈ socialHostHints)
    (hh : hasHostHint host h.data = true) : socialHit host = true := by
  rw [socialHit, List.any_eq_true]
  refine ⟨h, hm, ?_⟩
  rw [hasHostHint, Bool.or_eq_true] at hh
  rcases hh with h1 | h2
  · have he : host = h.data := eq_of_beq h1
    rw [he]
    exact isSub_self _
  · have hs : ('.' :: h.data) <:+ host := List.isSuffixOf_iff_suffix.mp h2
    exact isSub_of_suffix ((List.suffix_cons '.' h.data).trans hs)

/-- C5 counterexample: with official host linux.com (whose name contains
the social hint string x.com as a substring), an og-kind candidate hosted
on facebook.com strictly outscores a same-domain raw-kind candidate with
a non-negative (zero) path signal — the claim as stated is false because
the social penalty is a substring test that can also hit the same-domain
candidate. -/
theorem claim5_counterexample :
    staticCandidateScore ⟨"https://facebook.com/x/hero-1200x800.jpg", Kind.og⟩
      (("linux.com").data) [] = -26 ∧
    staticCandidateScore ⟨"https://linux.com/a", Kind.raw⟩ (("linux.com").data) [] = -48 ∧
    ((-48 : Int) < -26) ∧
    normalizeRootDomain (("linux.com").data) = normalizeRootDomain (("linux.com").data) ∧
    normalizeRootDomain (("linux.com").data) ≠ [] ∧
    (0 : Int) ≤ pathSignalScore (lowerL (("/a").data)) ∧
    hasHostHint (("facebook.com").data) (("facebook.com").data) = true ∧
    ("facebook.com" : String) ∈ socialHostHints := by
  refine ⟨by decide, by decide, by decide, rfl, by decide, by decide, by decide, by decide⟩

/-- C5 (amended): a candidate whose host is a known social-network asset
host (equal to or a subdomain of a hint) never scores strictly above a
candidate whose host is the same registrable domain as the official host
with a non-negative path signal, provided the second candidate's host
does not itself contain a social hint as a substring (the script's
penalty is a substring test, so without this proviso the claim fails,
see the counterexample). -/
theorem claim5_social_never_ahead (c1 c2 : Candidate) (officialHost : List Char)
    (tokens : List (List Char)) (u1 u2 : HttpUrl)
    (h1 : parseUrlL c1.url.data = some (.http u1))
    (hsoc : ∃ h ∈ socialHostHints, hasHostHint u1.host h.data = true)
    (h2 : parseUrlL c2.url.data = some (.http u2))
    (hsame : normalizeRootDomain u2.host = normalizeRootDomain officialHost)
    (hroot : normalizeRootDomain u2.host ≠ [])
    (hpath : 0 ≤ pathSignalScore (lowerL (u2.path ++ u2.query)))
    (hclean : socialHit u2.host = false) :
    staticCandidateScore c1 officialHost tokens ≤
      staticCandidateScore c2 officialHost tokens := by
  obtain ⟨h, hm, hh⟩ := hsoc
  have hs1 : socialHit u1.host = true := socialHit_of_hostHint hm hh
  simp only [staticCandidateScore, h1, h2, hs1, hclean, if_true, Bool.false_eq_true,
    if_false]
  have b1 := typeWeight_le c1.kind
  have b2 := (domainAffinity_bounds u1.host officialHost).2
  have b3 := pathSignalScore_le (lowerL (u1.path ++ u1.query))
  have b4 := (tokenScore_bounds tokens (lowerL (u1.path ++ u1.query))).2
  have b5 := (dimBonus_bounds (lowerL (u1.path ++ u1.query))).2
  have b6 := typeWeight_ge c2.kind
  have b7 := (tokenScore_bounds tokens (lowerL (u2.path ++ u2.query))).1
  have b8 := (dimBonus_bounds (lowerL (u2.path ++ u2.query))).1
  have b9 := domainAffinity_of_same hsame hroot
  rw [b9]
  linarith

/-- Witness for the amended C5 at a concrete pair of candidates. -/
theorem claim5_witness :
    staticCandidateScore ⟨"https://facebook.com/a.jpg", Kind.og⟩ (("vendor.example").data)
      [] ≤
    staticCandidateScore ⟨"https://vendor.example/b.jpg", Kind.raw⟩
      (("vendor.example").data) [] :=
  claim5_social_never_ahead _ _ _ _
    ⟨true, ("facebook.com").data, ("/a.jpg").data, []⟩
    ⟨true, ("vendor.example").data, ("/b.jpg").data, []⟩
    (by decide) ⟨"facebook.com", by decide, by decide⟩ (by decide) (by decide) (by decide)
    (by decide) (by decide)

/-- C8 counterexample: an og-kind candidate with an unparseable URL
scores 70 − 999 = −929, not exactly −999, because the base weight has
already been added when the catch block subtracts 999. -/
theorem claim8_counterexample :
    staticCandidateScore ⟨"notaurl", Kind.og⟩ (("x.example").data) [] = -929 ∧
    ((-929 : Int) ≠ -999) := by
  refine ⟨by decide, by decide⟩

/-- C8 (amended): for every candidate whose URL fails URL parsing the
static scorer returns typeWeight(kind) − 999 — deeply negative and
disqualifying, but offset by the already-added base weight rather than
exactly −999.  The scorer is modelled as a pure Lean function of its
three inputs, which witnesses that it performs no input/output and is
deterministic. -/
theorem claim8_parse_failure_score (c : Candidate) (officialHost : List Char)
    (tokens : List (List Char)) (hfail : parseUrlL c.url.data = none) :
    staticCandidateScore c officialHost tokens = typeWeight c.kind - 999 := by
  simp [staticCandidateScore, hfail]

/-- Witness for the amended C8 at a concrete unparseable URL. -/
theorem claim8_witness :
    staticCandidateScore ⟨"notaurl", Kind.og⟩ (("x.example").data) [] =
      typeWeight Kind.og - 999 :=
  claim8_parse_failure_score _ _ _ (by decide)

/-! ### Stable-sort order and the source-element claims -/

theorem srcWeightLe_trans {a b c : SrcWeight} (h1 : srcWeightLe a b = true)
    (h2 : srcWeightLe b c = true) : srcWeightLe a c = true := by
  simp only [srcWeightLe, decide_eq_true_eq] at h1 h2 ⊢
  have hb : (0 : Int) < 10 ^ b.dexp := pow_pos (by norm_num) _
  have hc : (0 : Int) ≤ 10 ^ c.dexp := le_of_lt (pow_pos (by norm_num) _)
  have ha : (0 : Int) ≤ 10 ^ a.dexp := le_of_lt (pow_pos (by norm_num) _)
  have h1c := mul_le_mul_of_nonneg_right h1 hc
  have h2a := mul_le_mul_of_nonneg_right h2 ha
  have hcomb : a.num * 10 ^ c.dexp * 10 ^ b.dexp ≤ c.num * 10 ^ a.dexp * 10 ^ b.dexp := by
    nlinarith [h1c, h2a]
  exact le_of_mul_le_mul_right hcomb hb

theorem srcWeightLe_total (a b : SrcWeight) :
    srcWeightLe a b = true ∨ srcWeightLe b a = true := by
  simp only [srcWeightLe, decide_eq_true_eq]
  exact le_total _ _

theorem mem_stableInsert {α : Type} (le : α → α → Bool) (a x : α) (l : List α) :
    x ∈ stableInsert le a l ↔ x = a ∨ x ∈ l := by
  induction l with
  | nil => simp [stableInsert]
  | cons b rest ih =>
    by_cases hab : le a b = true
    · rw [stableInsert, if_pos hab]
      simp [List.mem_cons]
    · rw [stableInsert, if_neg hab]
      simp only [List.mem_cons, ih]
      tauto

theorem stableInsert_pairwise {α : Type} (le : α → α → Bool)
    (htrans : ∀ a b c, le a b = true → le b c = true → le a c = true)
    (htot : ∀ a b, le a b = true ∨ le b a = true) (a : α) (l : List α)
    (hl : l.Pairwise (fun x y => le x y = true)) :
    (stableInsert le a l).Pairwise (fun x y => le x y = true) := by
  induction l with
  | nil => simp [stableInsert]
  | cons b rest ih =>
    rw [List.pairwise_cons] at hl
    by_cases hab : le a b = true
    · rw [stableInsert, if_pos hab]
      rw [List.pairwise_cons]
      refine ⟨?_, List.pairwise_cons.mpr hl⟩
      intro x hx
      rcases List.mem_cons.mp hx with rfl | hx2
      · exact hab
      · exact htrans a b x hab (hl.1 x hx2)
    · rw [stableInsert, if_neg hab]
      rw [List.pairwise_cons]
      refine ⟨?_, ih hl.2⟩
      intro x hx
      rcases (mem_stableInsert le a x rest).mp hx with rfl | hx2
      · rcases htot x b with h | h
        · exact absurd h hab
        · exact h
      · exact hl.1 x hx2

theorem stableSort_pairwise {α : Type} (le : α → α → Bool)
    (htrans : ∀ a b c, le a b = true → le b c = true → le a c = true)
    (htot : ∀ a b, le a b = true ∨ le b a = true) (l : List α) :
    (stableSort le l).Pairwise (fun x y => le x y = true) := by
  induction l with
  | nil => simp [stableSort]
  | cons a rest ih => exact stableInsert_pairwise le htrans htot a _ ih

/-- C6 counterexample: a source element whose comma-separated
candidate-list attribute holds three entries contributes the two
highest-weighted entries, not the single highest-weighted one as the
claim states. -/
theorem claim6_counterexample :
    sourceElementCandidates
      ⟨"https://a.example/1.jpg 100w, https://a.example/2.jpg 200w, https://a.example/3.jpg 300w",
       "", "", ""⟩ "https://a.example/" =
      [⟨"https://a.example/3.jpg", Kind.source⟩,
       ⟨"https://a.example/2.jpg", Kind.source⟩] ∧
    ([(⟨"https://a.example/3.jpg", Kind.source⟩ : Candidate),
      ⟨"https://a.example/2.jpg", Kind.source⟩].length ≠ 1) := by
  refine ⟨by decide, by decide⟩

/-- C6 (amended): for every responsive-image source element, the weights
order the candidate-list entries descending (width descriptor, or density
descriptor scaled by 1000), and the extractor takes the first TWO entries
of that order (not the single highest), each resolved against the base
URL, followed by the single-URL source attribute. -/
theorem claim6_source_extraction (attrs : SourceAttrs) (baseUrl : String) :
    (stableSort weightDescLe (srcsetEntries (srcsetAttr attrs))).Pairwise
      (fun a b => srcWeightLe b.2 a.2 = true) ∧
    parseSrcsetUrls (srcsetAttr attrs) =
      (((stableSort weightDescLe (srcsetEntries (srcsetAttr attrs))).map
        (fun e => e.1)).filter (fun u => !u.isEmpty)).map List.asString ∧
    srcsetCandidates attrs baseUrl =
      ((parseSrcsetUrls (srcsetAttr attrs)).take 2).filterMap
        (fun u =>
          if toAbsoluteUrl u baseUrl = "" then none
          else some (⟨toAbsoluteUrl u baseUrl, Kind.source⟩ : Candidate)) ∧
    (srcsetCandidates attrs baseUrl).length ≤ 2 ∧
    sourceElementCandidates attrs baseUrl =
      srcsetCandidates attrs baseUrl ++
        (if srcAttr attrs ≠ "" then
           (if toAbsoluteUrl (srcAttr attrs) baseUrl = "" then []
            else [(⟨toAbsoluteUrl (srcAttr attrs) baseUrl, Kind.source⟩ : Candidate)])
         else []) := by
  refine ⟨?_, rfl, rfl, ?_, rfl⟩
  · have hp := stableSort_pairwise weightDescLe
      (by
        intro a b c hab hbc
        simp only [weightDescLe] at hab hbc ⊢
        exact srcWeightLe_trans hbc hab)
      (by
        intro a b
        simp only [weightDescLe]
        exact srcWeightLe_total b.2 a.2)
      (srcsetEntries (srcsetAttr attrs))
    exact hp.imp (fun h => by simpa [weightDescLe] using h)
  · unfold srcsetCandidates
    refine le_trans (List.length_filterMap_le _ _) ?_
    exact List.length_take_le _ _

/-- Witness for the amended C6 at a concrete three-entry attribute. -/
theorem claim6_witness :
    (srcsetCandidates
      ⟨"https://a.example/1.jpg 100w, https://a.example/2.jpg 200w, https://a.example/3.jpg 300w",
       "", "", ""⟩ "https://a.example/").length ≤ 2 :=
  (claim6_source_extraction _ _).2.2.2.1

/-! ### Metadata lookup lemmas and C9 -/

theorem lookup_append {β : Type} (l1 l2 : List (String × β)) (k : String) :
    (l1 ++ l2).lookup k = ((l1.lookup k).orElse (fun _ => l2.lookup k)) := by
  induction l1 with
  | nil => simp [List.lookup]
  | cons a rest ih =>
    by_cases hk : k == a.1
    · simp [List.lookup, hk]
    · simp only [List.cons_append, List.lookup]
      rw [Bool.not_eq_true] at hk
      simp [hk, ih]

theorem lookup_map_replace (m : Meta) (k : String) (v : MVal) :
    (m.map (fun kv => if kv.1 = k then (k, v) else kv)).lookup k =
      (m.lookup k).map (fun _ => v) := by
  induction m with
  | nil => simp [List.lookup]
  | cons a rest ih =>
    rw [List.map_cons]
    by_cases hk : a.1 = k
    · rw [if_pos hk]
      have hbeq : (k == a.1) = true := by
        rw [hk]
        exact beq_self_eq_true k
      simp [List.lookup, hbeq]
    · rw [if_neg hk]
      have hbeq : (k == a.1) = false := by
        simp only [beq_eq_false_iff_ne, ne_eq]
        exact fun hx => hk hx.symm
      simp [List.lookup, hbeq, ih]

theorem lookup_map_replace_other (m : Meta) (k k2 : String) (v : MVal) (h : k2 ≠ k) :
    (m.map (fun kv => if kv.1 = k then (k, v) else kv)).lookup k2 = m.lookup k2 := by
  induction m with
  | nil => simp [List.lookup]
  | cons a rest ih =>
    rw [List.map_cons]
    by_cases hk : a.1 = k
    · rw [if_pos hk]
      have hbeq : (k2 == k) = false := by
        simp only [beq_eq_false_iff_ne, ne_eq]
        exact h
      have hbeq2 : (k2 == a.1) = false := by
        rw [hk]
        exact hbeq
      simp [List.lookup, hbeq, hbeq2]
      exact ih
    · rw [if_neg hk]
      by_cases hb : (k2 == a.1) = true
      · simp [List.lookup, hb]
      · rw [Bool.not_eq_true] at hb
        simp [List.lookup, hb, ih]

theorem lookup_setMeta_self (m : Meta) (k : String) (v : MVal) :
    (setMeta m k v).lookup k = some v := by
  unfold setMeta
  by_cases hs : (m.lookup k).isSome = true
  · rw [if_pos hs, lookup_map_replace]
    obtain ⟨w, hw⟩ := Option.isSome_iff_exists.mp hs
    rw [hw]
    rfl
  · rw [if_neg hs, lookup_append]
    rw [Option.not_isSome_iff_eq_none] at hs
    rw [hs]
    simp [List.lookup]

theorem lookup_setMeta_other (m : Meta) (k k2 : String) (v : MVal) (h : k2 ≠ k) :
    (setMeta m k v).lookup k2 = m.lookup k2 := by
  unfold setMeta
  by_cases hs : (m.lookup k).isSome = true
  · rw [if_pos hs]
    exact lookup_map_replace_other m k k2 v h
  · rw [if_neg hs, lookup_append]
    have hk2 : (k2 == k) = false := by
      simp only [beq_eq_false_iff_ne, ne_eq]
      exact h
    cases hm : m.lookup k2 <;> simp [hm, List.lookup, hk2]

/-- C9 counterexample: a concrete metadata update writes exactly the
timestamp, resolved-link count, curated count, manufacturer-fallback
count and note fields next to the preserved prior field — no field of the
summary carries the failed-request count (main only prints it to the
console and does not pass it to updateMetadata). -/
theorem claim9_counterexample :
    updateMetadata [("existing_field", MVal.n 7)] [] "2026-01-01T00:00:00.000Z" 1 2 =
      [("existing_field", MVal.n 7),
       ("manufacturer_image_enriched_at", MVal.s "2026-01-01T00:00:00.000Z"),
       ("manufacturer_image_links", MVal.n 0),
       ("manufacturer_image_curated_overrides", MVal.n 1),
       ("manufacturer_image_manufacturer_fallbacks", MVal.n 2),
       ("manufacturer_image_note", MVal.s metadataNote)] := by
  rfl

/-- C9 (amended): after every run the metadata summary holds the
generation timestamp, the resolved image-link count, the curated-override
count and the manufacturer-fallback count, plus the fixed note, and every
unrelated pre-existing field is preserved; the failed-request count is
not persisted (see the counterexample). -/
theorem claim9_metadata_summary (prior : Meta) (rows : List Row) (now : String)
    (curatedCount mfrCount : Nat) :
    (updateMetadata prior rows now curatedCount mfrCount).lookup
      "manufacturer_image_enriched_at" = some (.s now) ∧
    (updateMetadata prior rows now curatedCount mfrCount).lookup
      "manufacturer_image_links" =
      some (.n (rows.countP (fun r => resolvedUrl r ≠ ""))) ∧
    (updateMetadata prior rows now curatedCount mfrCount).lookup
      "manufacturer_image_curated_overrides" = some (.n curatedCount) ∧
    (updateMetadata prior rows now curatedCount mfrCount).lookup
      "manufacturer_image_manufacturer_fallbacks" = some (.n mfrCount) ∧
    (updateMetadata prior rows now curatedCount mfrCount).lookup
      "manufacturer_image_note" = some (.s metadataNote) ∧
    (∀ k : String,
      k ∉ ["manufacturer_image_enriched_at", "manufacturer_image_links",
        "manufacturer_image_curated_overrides", "manufacturer_image_manufacturer_fallbacks",
        "manufacturer_image_note"] →
      (updateMetadata prior rows now curatedCount mfrCount).lookup k = prior.lookup k) := by
  unfold updateMetadata
  refine ⟨?_, ?_, ?_, ?_, ?_, ?_⟩
  · rw [lookup_setMeta_other _ _ _ _ (by decide), lookup_setMeta_other _ _ _ _ (by decide),
      lookup_setMeta_other _ _ _ _ (by decide), lookup_setMeta_other _ _ _ _ (by decide),
      lookup_setMeta_self]
  · rw [lookup_setMeta_other _ _ _ _ (by decide), lookup_setMeta_other _ _ _ _ (by decide),
      lookup_setMeta_other _ _ _ _ (by decide), lookup_setMeta_self]
  · rw [lookup_setMeta_other _ _ _ _ (by decide), lookup_setMeta_other _ _ _ _ (by decide),
      lookup_setMeta_self]
  · rw [lookup_setMeta_other _ _ _ _ (by decide), lookup_setMeta_self]
  · rw [lookup_setMeta_self]
  · intro k hk
    simp only [List.mem_cons, not_or] at hk
    rw [lookup_setMeta_other _ _ _ _ hk.2.2.2.2.1, lookup_setMeta_other _ _ _ _ hk.2.2.2.1,
      lookup_setMeta_other _ _ _ _ hk.2.2.1, lookup_setMeta_other _ _ _ _ hk.2.1,
      lookup_setMeta_other _ _ _ _ hk.1]

/-- Witness for the amended C9 at a concrete prior record. -/
theorem claim9_witness :
    (updateMetadata [("existing_field", MVal.n 7)] [] "t" 3 4).lookup
      "manufacturer_image_curated_overrides" = some (.n 3) ∧
    (updateMetadata [("existing_field", MVal.n 7)] [] "t" 3 4).lookup "existing_field" =
      some (.n 7) := by
  have h := claim9_metadata_summary [("existing_field", MVal.n 7)] [] "t" 3 4
  refine ⟨h.2.2.1, ?_⟩
  rw [h.2.2.2.2.2 "existing_field" (by decide)]
  rfl

/-! ### The manufacturer-fallback pass (C3) -/

/-- The fallback-index fold, characterised over any accumulator: looking
up a non-empty key yields the accumulator's entry if present, else the
resolved image of the first resolved row with that key. -/
theorem foldl_fallbackStep_lookup (rows : List Row) :
    ∀ (idx0 : List (String × String)) (k : String), k ≠ "" →
      (rows.foldl fallbackStep idx0).lookup k =
        ((idx0.lookup k).orElse
          (fun _ => (rows.find? (fun r => normKey r == k && resolvedUrl r != "")).map
            resolvedUrl)) := by
  induction rows with
  | nil =>
    intro idx0 k hk
    cases h : idx0.lookup k <;> simp [h, Option.orElse]
  | cons r rs ih =>
    intro idx0 k hk
    rw [List.foldl_cons]
    rw [ih (fallbackStep idx0 r) k hk]
    by_cases hP : (normKey r == k && resolvedUrl r != "") = true
    · rw [@List.find?_cons_of_pos _ (fun r => normKey r == k && resolvedUrl r != "") r rs hP]
      rw [Bool.and_eq_true] at hP
      have hkey : normKey r = k := eq_of_beq hP.1
      have hres : resolvedUrl r ≠ "" := by
        have := hP.2
        simp only [bne_iff_ne, ne_eq] at this
        exact this
      cases hidx : idx0.lookup k with
      | some v =>
        have hstep : fallbackStep idx0 r = idx0 := by
          unfold fallbackStep
          rw [if_neg]
          rw [hkey, hidx]
          simp
        rw [hstep, hidx]
        simp [Option.orElse]
      | none =>
        have hstep : fallbackStep idx0 r = idx0 ++ [(k, resolvedUrl r)] := by
          unfold fallbackStep
          rw [hkey, if_pos]
          exact ⟨hk, hres, by rw [hidx]; rfl⟩
        rw [hstep, lookup_append, hidx]
        simp [Option.orElse, List.lookup]
    · rw [@List.find?_cons_of_neg _ (fun r => normKey r == k && resolvedUrl r != "") r rs hP]
      have hstep : (fallbackStep idx0 r).lookup k = idx0.lookup k := by
        unfold fallbackStep
        split
        · rw [lookup_append]
          next hcond =>
          have hkne : (k == normKey r) = false := by
            simp only [beq_eq_false_iff_ne, ne_eq]
            intro hke
            apply hP
            rw [Bool.and_eq_true]
            refine ⟨beq_iff_eq.mpr hke.symm, ?_⟩
            simp only [bne_iff_ne, ne_eq]
            exact hcond.2.1
          cases hidx : idx0.lookup k <;> simp [hidx, Option.orElse, List.lookup, hkne]
        · rfl
      rw [hstep]

/-- Looking up the empty key in any state reached by the fold stays
empty: the index never records an empty manufacturer key. -/
theorem foldl_fallbackStep_lookup_empty (rows : List Row) :
    ∀ idx0 : List (String × String), idx0.lookup "" = none →
      (rows.foldl fallbackStep idx0).lookup "" = none := by
  induction rows with
  | nil =>
    intro idx0 h
    simpa using h
  | cons r rs ih =>
    intro idx0 h
    rw [List.foldl_cons]
    refine ih _ ?_
    unfold fallbackStep
    split
    · next hcond =>
      rw [lookup_append, h]
      have hne : (("" : String) == normKey r) = false := by
        simp only [beq_eq_false_iff_ne, ne_eq]
        exact fun he => hcond.1 he.symm
      simp [Option.orElse, List.lookup, hne]
    · exact h

/-- C3: after the direct pass, the manufacturer fallback index maps each
non-empty normalised (sanitized, lower-cased) manufacturer name to the
resolved image URL of the first resolved row with that name in row order
(and holds no empty key); every still-unresolved row whose key has an
index entry receives exactly that URL; unresolved rows without an index
entry are unchanged (so an empty image_url stays empty); resolved rows
are unchanged; the number of backfilled rows is the manufacturer-fallback
statistic, and in the main run that statistic is the fallback count while
the curated statistic counts only the pool's curated-override results. -/
theorem claim3_manufacturer_fallback (rows : List Row) :
    (∀ k : String, k ≠ "" →
      (buildFallbackIndex rows).lookup k =
        (rows.find? (fun r => normKey r == k && resolvedUrl r != "")).map resolvedUrl) ∧
    (buildFallbackIndex rows).lookup "" = none ∧
    (fallbackPass rows).1.length = rows.length ∧
    (∀ (i : Nat) (hi : i < rows.length) (hi2 : i < (fallbackPass rows).1.length),
      (resolvedUrl rows[i] ≠ "" → ((fallbackPass rows).1)[i] = rows[i]) ∧
      (∀ v : String, resolvedUrl rows[i] = "" →
        (buildFallbackIndex rows).lookup (normKey rows[i]) = some v →
        (((fallbackPass rows).1)[i]).image_url = v) ∧
      (resolvedUrl rows[i] = "" →
        (buildFallbackIndex rows).lookup (normKey rows[i]) = none →
        ((fallbackPass rows).1)[i] = rows[i])) ∧
    (fallbackPass rows).2 = rows.countP (fallbackHit (buildFallbackIndex rows)) ∧
    (∀ (fetchC : String → Option (List Candidate)) (probe : String → Option ProbeResult)
      (rows0 : List Row),
      (mainRun fetchC probe rows0).stats.mfr =
        (fallbackPass (mergedRows fetchC probe rows0)).2 ∧
      (mainRun fetchC probe rows0).stats.curated =
        (poolResults fetchC probe rows0).countP
          (fun x => x.2.1 == ResolveCase.curated)) := by
  refine ⟨?_, ?_, ?_, ?_, rfl, fun _ _ _ => ⟨rfl, rfl⟩⟩
  · intro k hk
    rw [buildFallbackIndex, foldl_fallbackStep_lookup rows [] k hk]
    rfl
  · exact foldl_fallbackStep_lookup_empty rows [] rfl
  · simp [fallbackPass]
  · intro i hi hi2
    have hget : ((fallbackPass rows).1)[i] =
        applyFallback (buildFallbackIndex rows) rows[i] := by
      simp [fallbackPass, List.getElem_map]
    refine ⟨?_, ?_, ?_⟩
    · intro hres
      rw [hget, applyFallback, if_pos hres]
    · intro v hres hlook
      rw [hget, applyFallback, if_neg (by simp [hres]), hlook]
    · intro hres hlook
      rw [hget, applyFallback, if_neg (by simp [hres]), hlook]

/-- Witness for C3: the Acme scenario of the specification — row a
resolved directly, row b unresolved with the same manufacturer — backfills
row b with row a's image and counts one manufacturer fallback. -/
theorem claim3_witness :
    (∀ h2 : 1 < (fallbackPass
      [⟨"a", "", "", "Acme", "https://acme.example", "https://acme.example/p.jpg"⟩,
       ⟨"b", "", "", "Acme", "https://dead.example", ""⟩]).1.length,
      (((fallbackPass
        [⟨"a", "", "", "Acme", "https://acme.example", "https://acme.example/p.jpg"⟩,
         ⟨"b", "", "", "Acme", "https://dead.example", ""⟩]).1)[1]).image_url =
        "https://acme.example/p.jpg") ∧
    (fallbackPass
      [⟨"a", "", "", "Acme", "https://acme.example", "https://acme.example/p.jpg"⟩,
       ⟨"b", "", "", "Acme", "https://dead.example", ""⟩]).2 =
      [⟨"a", "", "", "Acme", "https://acme.example", "https://acme.example/p.jpg"⟩,
       (⟨"b", "", "", "Acme", "https://dead.example", ""⟩ : Row)].countP
        (fallbackHit (buildFallbackIndex
          [⟨"a", "", "", "Acme", "https://acme.example", "https://acme.example/p.jpg"⟩,
           ⟨"b", "", "", "Acme", "https://dead.example", ""⟩])) := by
  have h := claim3_manufacturer_fallback
    [⟨"a", "", "", "Acme", "https://acme.example", "https://acme.example/p.jpg"⟩,
     ⟨"b", "", "", "Acme", "https://dead.example", ""⟩]
  refine ⟨?_, h.2.2.2.2.1⟩
  intro h2
  exact (h.2.2.2.1 1 (by decide) h2).2.1 "https://acme.example/p.jpg"
    (by decide) (by decide)

/-! ### The curated-override claim (C1) -/

theorem workerRunT_id (fetchC : String → Option (List Candidate))
    (probe : String → Option ProbeResult) (r : Row) :
    (workerRunT fetchC probe r).1.id = r.id := by
  unfold workerRunT
  split_ifs <;> rfl

theorem workerRunT_override {fetchC : String → Option (List Candidate)}
    {probe : String → Option ProbeResult} {r : Row}
    (h : safeHttpUrl (curatedOverrideFor r.id) ≠ "") :
    workerRunT fetchC probe r =
      ({ r with image_url := safeHttpUrl (curatedOverrideFor r.id) },
        ResolveCase.curated, [], []) := by
  unfold workerRunT
  rw [if_pos h]

theorem lookupById_spec {key : String} {l : List Row} {v : Row}
    (hv : lookupById key l = some v) : v ∈ l ∧ strTrim v.id = key := by
  unfold lookupById at hv
  have h1 := @List.find?_some _ (fun r => strTrim r.id == key) v l.reverse hv
  exact ⟨List.mem_reverse.mp (List.mem_of_find?_eq_some hv), eq_of_beq h1⟩

theorem lookupById_isSome {key : String} {l : List Row}
    (h : ∃ v ∈ l, strTrim v.id = key) : ∃ v, lookupById key l = some v := by
  unfold lookupById
  have hs : (l.reverse.find? (fun r => strTrim r.id == key)).isSome = true := by
    rw [List.find?_isSome]
    obtain ⟨v, hv, he⟩ := h
    exact ⟨v, List.mem_reverse.mpr hv, beq_iff_eq.mpr he⟩
  exact Option.isSome_iff_exists.mp hs

/-- C1 counterexample: a row whose id has a curated override but whose
official_url is empty is excluded from the pool before the override check,
so its final image_url stays empty instead of the override value — the
claim fails for entries with an empty or invalid official_url. -/
theorem claim1_counterexample :
    ((mainRun (fun _ => none) (fun _ => none)
      [⟨"vH20M2KPj", "n", "s", "m", "", "x"⟩]).rows).map (fun r => r.image_url) = [""] ∧
    safeHttpUrl (curatedOverrideFor "vH20M2KPj") ≠ "" ∧
    ("" : String) ≠ safeHttpUrl (curatedOverrideFor "vH20M2KPj") := by
  refine ⟨by decide, by decide, by decide⟩

/-- C1 (amended): for every catalog entry with a valid official_url whose
id has a curated-override hit, the final image_url after the run equals
the override value regardless of network reachability (the theorem
quantifies over all fetch and probe oracles), and no page fetch or image
probe is performed for any pool entry carrying that id; entries without a
valid official_url never enter the pool, so the override does not reach
them (see the counterexample). -/
theorem claim1_curated_override (fetchC : String → Option (List Candidate))
    (probe : String → Option ProbeResult) (rows : List Row) (k : Nat)
    (hk : k < rows.length)
    (hov : safeHttpUrl (curatedOverrideFor (rows[k]).id) ≠ "")
    (hof : safeHttpUrl (rows[k]).official_url ≠ "") :
    (mainRun fetchC probe rows).rows.length = rows.length ∧
    (∀ hk2 : k < (mainRun fetchC probe rows).rows.length,
      (((mainRun fetchC probe rows).rows)[k]).image_url =
        safeHttpUrl (curatedOverrideFor (rows[k]).id)) ∧
    (∀ res ∈ (mainRun fetchC probe rows).results,
      strTrim res.1.id = strTrim (rows[k]).id → res.2.2.1 = [] ∧ res.2.2.2 = []) := by
  have hcl : ∀ hx : k < (clearedRows rows).length,
      (clearedRows rows)[k] = { rows[k] with image_url := "" } := by
    intro hx
    simp [clearedRows, List.getElem_map]
  have hwmem : ({ rows[k] with image_url := "" } : Row) ∈ clearedRows rows := by
    rw [clearedRows]
    exact List.mem_map.mpr ⟨rows[k], List.getElem_mem hk, rfl⟩
  have hwc : ({ rows[k] with image_url := "" } : Row) ∈ candidateRowsOf rows := by
    rw [candidateRowsOf]
    refine List.mem_filter.mpr ⟨hwmem, ?_⟩
    simpa using hof
  -- every pool result whose trimmed id matches carries the override
  have hall : ∀ u ∈ (poolResults fetchC probe rows).map (fun x => x.1),
      strTrim u.id = strTrim (rows[k]).id →
      u.image_url = safeHttpUrl (curatedOverrideFor (rows[k]).id) := by
    intro u hu hid
    rw [poolResults, List.map_map] at hu
    obtain ⟨c, hc, rfl⟩ := List.mem_map.mp hu
    have hidc : strTrim ((workerRunT fetchC probe c).1.id) = strTrim (rows[k]).id := hid
    rw [workerRunT_id] at hidc
    have hovc : curatedOverrideFor c.id = curatedOverrideFor (rows[k]).id := by
      unfold curatedOverrideFor
      rw [hidc]
    have hovc2 : safeHttpUrl (curatedOverrideFor c.id) ≠ "" := by
      rw [hovc]
      exact hov
    show ((workerRunT fetchC probe c).1 : Row).image_url = _
    rw [workerRunT_override hovc2]
    rw [hovc]
  -- the merge step stores the override on the row at position k
  have hlen1 : k < (clearedRows rows).length := by
    simpa [clearedRows] using hk
  have hres : ∃ v, lookupById (strTrim (rows[k]).id)
      ((poolResults fetchC probe rows).map (fun x => x.1)) = some v := by
    refine lookupById_isSome ⟨(workerRunT fetchC probe { rows[k] with image_url := "" }).1,
      ?_, ?_⟩
    · rw [poolResults, List.map_map]
      exact List.mem_map.mpr ⟨_, hwc, rfl⟩
    · rw [workerRunT_id]
  obtain ⟨v, hv⟩ := hres
  obtain ⟨hvmem, hvid⟩ := lookupById_spec hv
  have hvimg : v.image_url = safeHttpUrl (curatedOverrideFor (rows[k]).id) :=
    hall v hvmem hvid
  have hmerged : ∀ hm : k < (mergedRows fetchC probe rows).length,
      (mergedRows fetchC probe rows)[k] =
        { rows[k] with image_url := safeHttpUrl (curatedOverrideFor (rows[k]).id) } := by
    intro hm
    simp only [mergedRows, List.getElem_map]
    rw [hcl hlen1]
    show (match lookupById (strTrim (rows[k]).id) ((poolResults fetchC probe rows).map
        (fun x => x.1)) with
      | some u => { ({ rows[k] with image_url := "" } : Row) with
          image_url := strSanitize u.image_url }
      | none => ({ rows[k] with image_url := "" } : Row)) = _
    rw [hv]
    show ({ rows[k] with image_url := strSanitize v.image_url } : Row) = _
    rw [hvimg, strSanitize_safeHttpUrl]
  refine ⟨?_, ?_, ?_⟩
  · simp [mainRun, fallbackPass, mergedRows, clearedRows]
  · intro hk2
    have hm : k < (mergedRows fetchC probe rows).length := by
      simp only [mergedRows, List.length_map]
      exact hlen1
    show ((fallbackPass (mergedRows fetchC probe rows)).1[k]).image_url = _
    have hfb : ∀ hx : k < (fallbackPass (mergedRows fetchC probe rows)).1.length,
        (fallbackPass (mergedRows fetchC probe rows)).1[k] =
          applyFallback (buildFallbackIndex (mergedRows fetchC probe rows))
            ((mergedRows fetchC probe rows)[k]) := by
      intro hx
      simp [fallbackPass, List.getElem_map]
    have hx2 : k < (fallbackPass (mergedRows fetchC probe rows)).1.length := by
      simpa [fallbackPass] using hm
    have hcond : resolvedUrl ({ rows[k] with
        image_url := safeHttpUrl (curatedOverrideFor (rows[k]).id) } : Row) ≠ "" := by
      have hv2 : resolvedUrl ({ rows[k] with
          image_url := safeHttpUrl (curatedOverrideFor (rows[k]).id) } : Row) =
          safeHttpUrl (safeHttpUrl (curatedOverrideFor (rows[k]).id)) := rfl
      rw [hv2, safeHttpUrl_idem]
      exact hov
    rw [hfb hx2, hmerged hm, applyFallback, if_pos hcond]
  · intro res hres2 hid
    rw [mainRun] at hres2
    simp only [poolResults] at hres2
    obtain ⟨c, hc, rfl⟩ := List.mem_map.mp hres2
    have hidc : strTrim c.id = strTrim (rows[k]).id := by
      rw [← workerRunT_id fetchC probe c]
      exact hid
    have hovc2 : safeHttpUrl (curatedOverrideFor c.id) ≠ "" := by
      unfold curatedOverrideFor
      rw [hidc]
      exact hov
    rw [workerRunT_override hovc2]
    exact ⟨rfl, rfl⟩

/-- Witness for the amended C1: one row with an override id and a valid
but unreachable official URL ends with the curated image and no network
trace. -/
theorem claim1_witness :
    (mainRun (fun _ => none) (fun _ => none)
      [⟨"vH20M2KPj", "n", "s", "m", "https://ajnalens.com/x", "old"⟩]).rows.length = 1 ∧
    (∀ hk2 : 0 < (mainRun (fun _ => none) (fun _ => none)
      [⟨"vH20M2KPj", "n", "s", "m", "https://ajnalens.com/x", "old"⟩]).rows.length,
      (((mainRun (fun _ => none) (fun _ => none)
        [⟨"vH20M2KPj", "n", "s", "m", "https://ajnalens.com/x", "old"⟩]).rows)[0]).image_url =
        safeHttpUrl (curatedOverrideFor "vH20M2KPj")) := by
  have h := claim1_curated_override (fun _ => none) (fun _ => none)
    [⟨"vH20M2KPj", "n", "s", "m", "https://ajnalens.com/x", "old"⟩] 0 (by decide)
    (by decide) (by decide)
  exact ⟨h.1, h.2.1⟩


/-! ## C4: determinism of the worker pool -/

theorem poolStep_workers_length {α ρ : Type} (items : List α) (work : α → Nat → ρ)
    (s : PoolState ρ) (w : Nat) :
    (poolStep items work s w).workers.length = s.workers.length := by
  unfold poolStep
  split
  · split
    · simp [List.length_set]
    · simp [List.length_set]
  · split
    · simp [List.length_set]
    · simp [List.length_set]
  · rfl

theorem poolInit_inv {α : Type} (ρ : Type) (items : List α) (work : α → Nat → ρ) (c : Nat) :
    PoolInv items work (poolInit ρ items.length c) := by
  refine ⟨by simp [poolInit], ?_, ?_, ?_⟩
  · intro w i h
    simp only [poolInit, List.getElem?_replicate] at h
    split at h
    · exact absurd h (by simp)
    · exact absurd h (by simp)
  · intro i hi hc
    simp only [poolInit] at hc
    exact absurd hc (Nat.not_lt_zero i)
  · rintro ⟨w, hw⟩
    simp only [poolInit, List.getElem?_replicate] at hw
    split at hw
    · exact absurd hw (by simp)
    · exact absurd hw (by simp)

theorem poolStep_inv {α ρ : Type} {items : List α} {work : α → Nat → ρ}
    {s : PoolState ρ} (hinv : PoolInv items work s) (w0 : Nat) :
    PoolInv items work (poolStep items work s w0) := by
  obtain ⟨hlen, hwork, hcover, hdone⟩ := hinv
  unfold poolStep
  split
  next hw0 =>
    have hw0lt : w0 < s.workers.length := (List.getElem?_eq_some.mp hw0).1
    split
    next hc =>
      refine ⟨hlen, ?_, ?_, ?_⟩
      · intro w i h
        simp only [List.getElem?_set] at h
        by_cases hww : w0 = w
        · rw [if_pos hww, if_pos hw0lt] at h
          have h3 : s.cursor = i := by
            injection h with h2
            injection h2
          cases h3
          exact ⟨Nat.lt_succ_self _, hc⟩
        · rw [if_neg hww] at h
          obtain ⟨h1, h2⟩ := hwork w i h
          exact ⟨Nat.lt_succ_of_lt h1, h2⟩
      · intro i hi hic
        rcases lt_or_eq_of_le (Nat.lt_succ_iff.mp hic) with hlt | heq
        · rcases hcover i hi hlt with hres | ⟨w', hw'⟩
          · exact Or.inl hres
          · refine Or.inr ⟨w', ?_⟩
            simp only [List.getElem?_set]
            by_cases hww : w0 = w'
            · subst hww
              rw [hw0] at hw'
              exact absurd hw' (by simp)
            · rw [if_neg hww]
              exact hw'
        · subst heq
          refine Or.inr ⟨w0, ?_⟩
          simp only [List.getElem?_set]
          simp [hw0lt]
      · rintro ⟨w, hw⟩
        simp only [List.getElem?_set] at hw
        by_cases hww : w0 = w
        · rw [if_pos hww, if_pos hw0lt] at hw
          exact absurd hw (by simp)
        · rw [if_neg hww] at hw
          exact Nat.le_succ_of_le (hdone ⟨w, hw⟩)
    next hc =>
      have hn : items.length ≤ s.cursor := Nat.le_of_not_lt hc
      refine ⟨hlen, ?_, ?_, ?_⟩
      · intro w i h
        simp only [List.getElem?_set] at h
        by_cases hww : w0 = w
        · rw [if_pos hww, if_pos hw0lt] at h
          exact absurd h (by simp)
        · rw [if_neg hww] at h
          obtain ⟨h1, h2⟩ := hwork w i h
          exact ⟨Nat.lt_succ_of_lt h1, h2⟩
      · intro i hi hic
        have hlt : i < s.cursor := Nat.lt_of_lt_of_le hi hn
        rcases hcover i hi hlt with hres | ⟨w', hw'⟩
        · exact Or.inl hres
        · refine Or.inr ⟨w', ?_⟩
          simp only [List.getElem?_set]
          by_cases hww : w0 = w'
          · subst hww
            rw [hw0] at hw'
            exact absurd hw' (by simp)
          · rw [if_neg hww]
            exact hw'
      · intro _
        exact Nat.le_succ_of_le hn
  next i0 hw0 =>
    have hw0lt : w0 < s.workers.length := (List.getElem?_eq_some.mp hw0).1
    obtain ⟨hi0c, hi0n⟩ := hwork w0 i0 hw0
    split
    next a hi =>
      refine ⟨?_, ?_, ?_, ?_⟩
      · simp only [List.length_set]
        exact hlen
      · intro w i h
        simp only [List.getElem?_set] at h
        by_cases hww : w0 = w
        · rw [if_pos hww, if_pos hw0lt] at h
          exact absurd h (by simp)
        · rw [if_neg hww] at h
          exact hwork w i h
      · intro i hi2 hic
        by_cases hii : i = i0
        · refine Or.inl ?_
          have hir : i0 < s.results.length := by
            rw [hlen]
            exact hi0n
          rw [hii]
          simp only [List.getElem?_set_self hir]
          unfold expectedAt
          rw [hi]
          rfl
        · rcases hcover i hi2 hic with hres | ⟨w', hw'⟩
          · refine Or.inl ?_
            simp only [List.getElem?_set_ne (Ne.symm hii)]
            exact hres
          · refine Or.inr ⟨w', ?_⟩
            by_cases hww : w0 = w'
            · rw [← hww] at hw'
              rw [hw0] at hw'
              have h4 : i0 = i := by
                injection hw' with h2
                injection h2
              exact absurd h4.symm hii
            · simp only [List.getElem?_set_ne hww]
              exact hw'
      · rintro ⟨w, hw⟩
        simp only [List.getElem?_set] at hw
        by_cases hww : w0 = w
        · rw [if_pos hww, if_pos hw0lt] at hw
          exact absurd hw (by simp)
        · rw [if_neg hww] at hw
          exact hdone ⟨w, hw⟩
    next hi =>
      rw [List.getElem?_eq_getElem hi0n] at hi
      exact absurd hi (by simp)
  next =>
    exact ⟨hlen, hwork, hcover, hdone⟩

theorem poolExec_inv {α ρ : Type} (items : List α) (work : α → Nat → ρ) :
    ∀ (sched : List Nat) (s : PoolState ρ), PoolInv items work s →
      PoolInv items work (poolExec items work s sched)
  | [], _, h => h
  | w :: rest, s, h =>
    poolExec_inv items work rest (poolStep items work s w) (poolStep_inv h w)

theorem poolExec_workers_length {α ρ : Type} (items : List α) (work : α → Nat → ρ) :
    ∀ (sched : List Nat) (s : PoolState ρ),
      (poolExec items work s sched).workers.length = s.workers.length
  | [], _ => rfl
  | w :: rest, s =>
    (poolExec_workers_length items work rest (poolStep items work s w)).trans
      (poolStep_workers_length items work s w)

theorem expectedResults_getElem? {α ρ : Type} (work : α → Nat → ρ) :
    ∀ (items : List α) (i0 j : Nat),
      (expectedResults work items i0)[j]? =
        (items[j]?).map (fun a => some (work a (i0 + j)))
  | [], _, _ => by simp [expectedResults]
  | _ :: _, _, 0 => by simp [expectedResults]
  | a :: rest, i0, j + 1 => by
    have h1 : i0 + 1 + j = i0 + (j + 1) := by omega
    simp only [expectedResults, List.getElem?_cons_succ]
    rw [expectedResults_getElem? work rest (i0 + 1) j, h1]

theorem poolDone_status {ρ : Type} {s : PoolState ρ} (hd : poolDone s = true)
    {w : Nat} {st : WStatus} (hw : s.workers[w]? = some st) : st = WStatus.done := by
  unfold poolDone at hd
  have hmem : st ∈ s.workers := by
    obtain ⟨hlt, hget⟩ := List.getElem?_eq_some.mp hw
    exact hget ▸ List.getElem_mem hlt
  have h2 := (List.all_eq_true.mp hd) st hmem
  simpa using h2

theorem pool_final_results {α ρ : Type} {items : List α} {work : α → Nat → ρ}
    {s : PoolState ρ} (hinv : PoolInv items work s) (hd : poolDone s = true)
    (hne : s.workers ≠ []) : s.results = expectedResults work items 0 := by
  obtain ⟨hlen, hwork, hcover, hdone⟩ := hinv
  have h0 : 0 < s.workers.length := List.length_pos.mpr hne
  have hw0 : s.workers[0]? = some WStatus.done := by
    rw [List.getElem?_eq_getElem h0]
    rw [poolDone_status hd (List.getElem?_eq_getElem h0)]
  have hcur : items.length ≤ s.cursor := hdone ⟨0, hw0⟩
  apply List.ext_getElem?
  intro j
  rw [expectedResults_getElem?]
  by_cases hj : j < items.length
  · rcases hcover j hj (Nat.lt_of_lt_of_le hj hcur) with hres | ⟨w, hw⟩
    · rw [hres]
      unfold expectedAt
      rcases hji : items[j]? with _ | a
      · rw [List.getElem?_eq_getElem hj] at hji
        exact absurd hji (by simp)
      · simp
    · have h5 := poolDone_status hd hw
      exact absurd h5 (by simp)
  · have h1 : s.results[j]? = none := List.getElem?_eq_none (by rw [hlen]; omega)
    have h2 : items[j]? = none := List.getElem?_eq_none (by omega)
    rw [h1, h2]
    rfl

/-- C4: the scheduler pool is deterministic.  For every item list and every
pure worker function, any two complete executions of the pool — any worker
counts of at least one, any interleavings (schedules) that drive every
runner to retirement — deliver the same results array, namely exactly the
worker's value on each item at its own index.  Concurrency changes only
the order of events, never the outcome. -/
theorem claim4_pool_deterministic {α ρ : Type} (items : List α) (work : α → Nat → ρ)
    (c1 c2 : Nat) (sched1 sched2 : List Nat) (hc1 : 0 < c1) (hc2 : 0 < c2)
    (hd1 : poolDone (poolExec items work (poolInit ρ items.length c1) sched1) = true)
    (hd2 : poolDone (poolExec items work (poolInit ρ items.length c2) sched2) = true) :
    (poolExec items work (poolInit ρ items.length c1) sched1).results =
        expectedResults work items 0 ∧
    (poolExec items work (poolInit ρ items.length c1) sched1).results =
      (poolExec items work (poolInit ρ items.length c2) sched2).results := by
  have key : ∀ c : Nat, 0 < c → ∀ sched : List Nat,
      poolDone (poolExec items work (poolInit ρ items.length c) sched) = true →
      (poolExec items work (poolInit ρ items.length c) sched).results =
        expectedResults work items 0 := by
    intro c hc sched hdn
    apply pool_final_results
      (poolExec_inv items work sched _ (poolInit_inv ρ items work c)) hdn
    have hwlen : (poolExec items work (poolInit ρ items.length c) sched).workers.length = c :=
      (poolExec_workers_length items work sched _).trans (by simp [poolInit])
    intro hnil
    rw [hnil] at hwlen
    simp at hwlen
    omega
  exact ⟨key c1 hc1 sched1 hd1,
    (key c1 hc1 sched1 hd1).trans (key c2 hc2 sched2 hd2).symm⟩

theorem claim4_witness :
    (poolExec [10, 20] (fun a i => a + i) (poolInit Nat 2 1) [0, 0, 0, 0, 0]).results =
        expectedResults (fun a i => a + i) [10, 20] 0 ∧
    (poolExec [10, 20] (fun a i => a + i) (poolInit Nat 2 1) [0, 0, 0, 0, 0]).results =
      (poolExec [10, 20] (fun a i => a + i) (poolInit Nat 2 2) [0, 1, 0, 1, 0, 1]).results :=
  claim4_pool_deterministic [10, 20] (fun a i => a + i) 1 2
    [0, 0, 0, 0, 0] [0, 1, 0, 1, 0, 1]
    (by decide) (by decide) (by decide) (by decide)

end ArDirectory
